import Mathlib

/-!
Shallow embedding of the explicit-list memory allocator `el_malloc.c`.

The heap is modelled as a list of blocks in address order starting at
offset 0 (the address `heap_start`).  Every block occupies
`size + OV` bytes where `OV = sizeof(header) + sizeof(footer)` is the
fixed per-block overhead, so the offset of block `i` is the sum of the
spans of the blocks before it, and `heap_end` corresponds to the offset
`heapBytes`.  A block records its header `size` field, the `size` field
stored in its footer (`foot`), and its `state` field.  The intrusive
`prev`/`next` pointers of the C lists are represented by the
`members` list of header offsets (front of the doubly-linked list first);
the `length` and `bytes` fields of `el_blocklist_t` are modelled
verbatim.  Machine integers (`size_t`) are modelled as `Nat`; the C
subtractions in question never underflow in well-formed states, which is
the only place the claims read them.

Reads of memory that is not the header of a live block (possible in C
only through caller misuse or corrupted metadata, which the source
declares undefined) are modelled as leaving the state unchanged.
-/

namespace ElMalloc

/-- Layout constants of `el_malloc.h` (not part of `src/`):
`headSz = sizeof(el_blockhead_t)`, `footSz = sizeof(el_blockfoot_t)`,
`pageBytes = EL_PAGE_BYTES`. -/
structure Cfg where
  headSz : Nat
  footSz : Nat
  pageBytes : Nat
deriving DecidableEq, Repr

/-- `EL_BLOCK_OVERHEAD = sizeof(el_blockhead_t) + sizeof(el_blockfoot_t)`. -/
def Cfg.OV (c : Cfg) : Nat := c.headSz + c.footSz

/-- Block state: `EL_AVAILABLE` or `EL_USED` (the sentinel states
`EL_BEGIN_BLOCK`/`EL_END_BLOCK` live only in the list sentinels, which are
not heap blocks and are represented by the `members` list itself). -/
inductive St where
  | avail : St
  | used : St
deriving DecidableEq, Repr

/-- One heap block: header `size` field, footer `size` field (`foot`),
and header `state` field. -/
structure Blk where
  size : Nat
  foot : Nat
  st : St
deriving DecidableEq, Repr

/-- An `el_blocklist_t`: member blocks identified by their header offsets
(front of the list first), plus the `length` and `bytes` bookkeeping
fields. -/
structure BList where
  members : List Nat
  length : Nat
  bytes : Nat
deriving DecidableEq, Repr

/-- The allocator state (`el_ctl`): blocks in address order, the heap
size in bytes (`heap_end - heap_start`), and the two lists. -/
structure Heap where
  blocks : List Blk
  heapBytes : Nat
  avail : BList
  used : BList
deriving DecidableEq, Repr

/-- Total number of bytes spanned by a run of blocks (each block occupies
`size + OV` bytes). -/
def spanSum (c : Cfg) (bs : List Blk) : Nat :=
  (bs.map (fun b => b.size + c.OV)).sum

/-- Resolve a byte offset to the block whose header starts there,
returning its index and the block: the C code's cast of an address to
`el_blockhead_t *`.  `base` is the offset of the first block of `bs`. -/
def findBlk (c : Cfg) : Nat → List Blk → Nat → Option (Nat × Blk)
  | _, [], _ => none
  | base, b :: bs, o =>
      if o = base then some (0, b)
      else (findBlk c (base + (b.size + c.OV)) bs o).map (fun p => (p.1 + 1, p.2))

/-- Index of the block whose header is at offset `o`. -/
def idxAt (c : Cfg) (bs : List Blk) (o : Nat) : Option Nat :=
  (findBlk c 0 bs o).map Prod.fst

/-- The block whose header is at offset `o`. -/
def blkAt (c : Cfg) (bs : List Blk) (o : Nat) : Option Blk :=
  (findBlk c 0 bs o).map Prod.snd

/-- Write the `state` field of the block at offset `o`. -/
def setState (c : Cfg) (s : Heap) (o : Nat) (st : St) : Heap :=
  match findBlk c 0 s.blocks o with
  | some (i, b) => { s with blocks := s.blocks.set i { b with st := st } }
  | none => s

/-- `el_block_above`: the address one block higher,
`block + block->size + EL_BLOCK_OVERHEAD`; `NULL` when that address is at
or past `heap_end`. -/
def el_block_above (c : Cfg) (s : Heap) (o : Nat) : Option Nat :=
  match blkAt c s.blocks o with
  | none => none
  | some b =>
      if s.heapBytes ≤ o + (b.size + c.OV) then none
      else some (o + (b.size + c.OV))

/-- `el_block_below`: reads the footer immediately preceding the block's
header (`NULL` when that footer address is at or before `heap_start`,
i.e. `o ≤ footSz`) and steps back by `foot->size + EL_BLOCK_OVERHEAD`.
The bytes just below a block header are the footer of the preceding
block in address order, whose recorded size is that block's `foot`
field. -/
def el_block_below (c : Cfg) (s : Heap) (o : Nat) : Option Nat :=
  if o ≤ c.footSz then none
  else
    match findBlk c 0 s.blocks o with
    | some (i + 1, _) =>
        match s.blocks[i]? with
        | some pb => some (o - (pb.foot + c.OV))
        | none => none
    | _ => none

/-- `el_add_block_front`: splice the block in right after the `beg`
sentinel, increment `length`, add `block->size + EL_BLOCK_OVERHEAD` to
`bytes`. -/
def el_add_block_front (c : Cfg) (bs : List Blk) (l : BList) (o : Nat) : BList :=
  let sz := match blkAt c bs o with
    | some b => b.size
    | none => 0
  { members := o :: l.members
    length := l.length + 1
    bytes := l.bytes + (sz + c.OV) }

/-- `el_remove_block`: splice the block out via its own links, decrement
`length`, subtract `block->size + EL_BLOCK_OVERHEAD` from `bytes`. -/
def el_remove_block (c : Cfg) (bs : List Blk) (l : BList) (o : Nat) : BList :=
  let sz := match blkAt c bs o with
    | some b => b.size
    | none => 0
  { members := l.members.erase o
    length := l.length - 1
    bytes := l.bytes - (sz + c.OV) }

/-- `el_init` given the initial heap size (`EL_HEAP_INITIAL_SIZE`): fails
(returns 1) when the heap cannot hold one block overhead; otherwise one
available block spanning the whole heap, on the available list. -/
def el_init (c : Cfg) (initBytes : Nat) : Option Heap :=
  if initBytes < c.OV then none
  else
    let sz := initBytes - c.OV
    some { blocks := [⟨sz, sz, St.avail⟩]
           heapBytes := initBytes
           avail := { members := [0], length := 1, bytes := sz + c.OV }
           used := { members := [], length := 0, bytes := 0 } }

/-- `el_find_first_avail`: walk the available list from the `beg`
sentinel; return the first member that is `EL_AVAILABLE` and has
`size >= size`. -/
def el_find_first_avail (c : Cfg) (s : Heap) (n : Nat) : Option Nat :=
  s.avail.members.find? (fun o =>
    match blkAt c s.blocks o with
    | some b => b.st == St.avail && decide (n ≤ b.size)
    | none => false)

/-- `el_split_block`: refuse (return the heap unchanged and `NULL`) when
`block->size < size_NEW + EL_BLOCK_OVERHEAD`; otherwise shrink the block
to `size_NEW` (header and a freshly written footer), and create a new
`EL_AVAILABLE` block just above it of size
`size_OLD - (size_NEW + EL_BLOCK_OVERHEAD)` whose footer (the old
block's original footer) records the new block's size.  No list is
touched; the new block's offset is returned. -/
def el_split_block (c : Cfg) (s : Heap) (o : Nat) (n : Nat) : Heap × Option Nat :=
  match findBlk c 0 s.blocks o with
  | some (i, b) =>
      if b.size < n + c.OV then (s, none)
      else
        ({ s with blocks :=
            s.blocks.take i
              ++ (⟨n, n, b.st⟩ : Blk)
              :: (⟨b.size - (n + c.OV), b.size - (n + c.OV), St.avail⟩ : Blk)
              :: s.blocks.drop (i + 1) },
         some (o + (n + c.OV)))
  | none => (s, none)

/-- `el_malloc`: first fit; `NULL` with no state change when no block
fits; otherwise unlink the block, split off any excess back to the front
of the available list, mark the block used, push it to the front of the
used list, and return its payload address (header offset + header
size). -/
def el_malloc (c : Cfg) (s : Heap) (n : Nat) : Heap × Option Nat :=
  match el_find_first_avail c s n with
  | none => (s, none)
  | some o =>
      let s1 : Heap := { s with avail := el_remove_block c s.blocks s.avail o }
      let sp := el_split_block c s1 o n
      let s3 : Heap := match sp.2 with
        | some ro => { sp.1 with avail := el_add_block_front c sp.1.blocks sp.1.avail ro }
        | none => sp.1
      let s4 := setState c s3 o St.used
      let s5 : Heap := { s4 with used := el_add_block_front c s4.blocks s4.used o }
      (s5, some (o + c.headSz))

/-- The merge action of `el_merge_block_with_above` once both `lower` (at
`o`) and `higher` (at `ha`) are known available: remove both from the
available list, grow `lower` by `higher->size + EL_BLOCK_OVERHEAD`,
rewrite the merged footer (the old footer of `higher`), and push the
merged block back on the front of the available list.  In memory the two
must be address-adjacent (`higher` is the next block); merging with
anything else would be metadata corruption, modelled as no action. -/
def mergeStep (c : Cfg) (s : Heap) (o ha : Nat) : Option Heap :=
  match findBlk c 0 s.blocks o, findBlk c 0 s.blocks ha with
  | some (i, lower), some (j, higher) =>
      if j = i + 1 then
        let a1 := el_remove_block c s.blocks s.avail ha
        let a2 := el_remove_block c s.blocks a1 o
        let ns := lower.size + higher.size + c.OV
        let bs' := s.blocks.take i ++ (⟨ns, ns, lower.st⟩ : Blk) :: s.blocks.drop (i + 2)
        let s' : Heap := { s with blocks := bs', avail := a2 }
        some { s' with avail := el_add_block_front c s'.blocks s'.avail o }
      else none
  | _, _ => none

/-- Body of `el_merge_block_with_above`, recursion depth bounded by
`fuel` (the C recursion's depth is bounded by twice the block count in
any state the allocator can reach, see `el_merge_block_with_above`).
Control flow of the source, in order: return if the argument is `NULL`;
return if `lower` is not available; return if the block above is `NULL`
(this skips the below-neighbor check); if the block above is available,
merge and recurse on the merged block; then look at the block below in
the possibly-updated state and recurse from it when it is available. -/
def mergeFuel (c : Cfg) : Nat → Heap → Option Nat → Heap
  | 0, s, _ => s
  | _, s, none => s
  | fuel + 1, s, some o =>
      match blkAt c s.blocks o with
      | none => s
      | some lower =>
          if lower.st = St.avail then
            match el_block_above c s o with
            | none => s
            | some ha =>
                let s1 : Heap :=
                  match blkAt c s.blocks ha with
                  | none => s
                  | some higher =>
                      if higher.st = St.avail then
                        match mergeStep c s o ha with
                        | some t => mergeFuel c fuel t (some o)
                        | none => s
                      else s
                match el_block_below c s1 o with
                | none => s1
                | some la =>
                    match blkAt c s1.blocks la with
                    | none => s1
                    | some lowerer =>
                        if lowerer.st = St.avail then mergeFuel c fuel s1 (some la)
                        else s1
          else s

/-- `el_merge_block_with_above`.  Each level of the C recursion either
merges two blocks (so the block count drops) or moves to the strictly
lower free neighbor whose own upward merge then fires, so in any state
the allocator reaches the recursion depth is at most twice the block
count; `2 * length + 2` fuel therefore reproduces the C behavior. -/
def el_merge_block_with_above (c : Cfg) (s : Heap) (o : Option Nat) : Heap :=
  mergeFuel c (2 * s.blocks.length + 2) s o

/-- `el_free`: recover the header at `ptr - sizeof(el_blockhead_t)`,
unlink it from the used list, mark it `EL_AVAILABLE`, push it onto the
front of the available list, and run `el_merge_block_with_above` on it.
A pointer that is not the payload of a live block is caller misuse
(undefined in C), modelled as no change. -/
def el_free (c : Cfg) (s : Heap) (p : Nat) : Heap :=
  let o := p - c.headSz
  match blkAt c s.blocks o with
  | none => s
  | some _ =>
      let s1 : Heap := { s with used := el_remove_block c s.blocks s.used o }
      let s2 := setState c s1 o St.avail
      let s3 : Heap := { s2 with avail := el_add_block_front c s2.blocks s2.avail o }
      el_merge_block_with_above c s3 (some o)

/-- `el_append_pages_to_heap`, success path (the `mmap` failure paths
return 1 with no state change): extend the heap by
`npages * EL_PAGE_BYTES` bytes, format the new b
region as one available block at the old `heap_end` with header and
footer, push it onto the front of the available list, and if the block
below it is available run `el_merge_block_with_above` from that block. -/
def el_append_pages_to_heap (c : Cfg) (s : Heap) (npages : Nat) : Heap :=
  let nsz := npages * c.pageBytes
  let newOff := s.heapBytes
  let nb : Blk := ⟨nsz - c.OV, nsz - c.OV, St.avail⟩
  let s1 : Heap := { s with blocks := s.blocks ++ [nb], heapBytes := s.heapBytes + nsz }
  let s2 : Heap := { s1 with avail := el_add_block_front c s1.blocks s1.avail newOff }
  match el_block_below c s2 newOff with
  | none => s2
  | some la =>
      match blkAt c s2.blocks la with
      | some pb => if pb.st = St.avail then el_merge_block_with_above c s2 (some la) else s2
      | none => s2

/-- Structural configuration facts from `el_malloc.h`: both header and
footer are nonempty structs, and a page holds at least one block
overhead (concretely `headSz = 32`, `footSz = 8`, `pageBytes = 4096`). -/
def CfgOK (c : Cfg) : Prop :=
  0 < c.headSz ∧ 0 < c.footSz ∧ c.OV ≤ c.pageBytes

instance (c : Cfg) : Decidable (CfgOK c) :=
  inferInstanceAs (Decidable (0 < c.headSz ∧ 0 < c.footSz ∧ c.OV ≤ c.pageBytes))

/-- Scan of an address-ordered run of blocks checking that no two
consecutive blocks are both `EL_AVAILABLE`. -/
def noAdjFreeRun : List Blk → Bool
  | a :: b :: rest =>
      !(a.st == St.avail && b.st == St.avail) && noAdjFreeRun (b :: rest)
  | _ => true

/-- No two address-adjacent blocks are both `EL_AVAILABLE`. -/
def NoAdjFree (s : Heap) : Prop :=
  noAdjFreeRun s.blocks = true

instance (s : Heap) : Decidable (NoAdjFree s) :=
  inferInstanceAs (Decidable (noAdjFreeRun s.blocks = true))

/-- States reachable from `el_init` by returned public calls: `el_malloc`
with any request, `el_free` of the payload of a live used block (the
caller contract), and a successful `el_append_pages_to_heap` of at least
one page (zero pages makes the C `mmap` fail with no state change). -/
inductive Reachable (c : Cfg) : Heap → Prop where
  | init : ∀ ib s, el_init c ib = some s → Reachable c s
  | mallocStep : ∀ s n, Reachable c s → Reachable c (el_malloc c s n).1
  | freeStep : ∀ s p b, Reachable c s →
      blkAt c s.blocks (p - c.headSz) = some b → b.st = St.used →
      Reachable c (el_free c s p)
  | growStep : ∀ s np, Reachable c s → 0 < np →
      Reachable c (el_append_pages_to_heap c s np)

/-- Offset of the block with index `i` in the address-ordered walk:
the spans of all blocks before it. -/
def offAt (c : Cfg) (bs : List Blk) (i : Nat) : Nat :=
  spanSum c (bs.take i)

/-- The address-ordered walk paired with header offsets, starting at
offset `base`. -/
def offBlocks (c : Cfg) (base : Nat) : List Blk → List (Nat × Blk)
  | [] => []
  | b :: bs => (base, b) :: offBlocks c (base + (b.size + c.OV)) bs

/-- Header offsets of the blocks of `bs` in state `st`, in address
order, when the run starts at offset `base`. -/
def segMembers (c : Cfg) (base : Nat) (bs : List Blk) (st : St) : List Nat :=
  ((offBlocks c base bs).filter (fun p => p.2.st == st)).map Prod.fst

/-- Header offsets of the blocks in state `st`, in address order. -/
def stateMembers (c : Cfg) (bs : List Blk) (st : St) : List Nat :=
  segMembers c 0 bs st

/-- Number of blocks in state `st`. -/
def stateCount (bs : List Blk) (st : St) : Nat :=
  (bs.filter (fun b => b.st == st)).length

/-- Total `size + EL_BLOCK_OVERHEAD` bytes of the blocks in state `st`. -/
def stateBytes (c : Cfg) (bs : List Blk) (st : St) : Nat :=
  ((bs.filter (fun b => b.st == st)).map (fun b => b.size + c.OV)).sum

/-- The span `size + EL_BLOCK_OVERHEAD` of the member block at offset
`o`, as counted by the list `bytes` aggregates. -/
def memberSpan (c : Cfg) (bs : List Blk) (o : Nat) : Nat :=
  match blkAt c bs o with
  | some b => b.size + c.OV
  | none => 0

/-- Well-formedness of an at-rest allocator state: the address walk
covers the heap exactly; every footer mirrors its header's size; each
list's membership is the set of blocks in its state; and both lists'
`length`/`bytes` aggregates agree with the heap.  `el_init` establishes
it and every public operation preserves it. -/
def WF (c : Cfg) (s : Heap) : Prop :=
  spanSum c s.blocks = s.heapBytes ∧
  (∀ b ∈ s.blocks, b.foot = b.size) ∧
  List.Perm s.avail.members (stateMembers c s.blocks St.avail) ∧
  List.Perm s.used.members (stateMembers c s.blocks St.used) ∧
  s.avail.length = stateCount s.blocks St.avail ∧
  s.used.length = stateCount s.blocks St.used ∧
  s.avail.bytes = stateBytes c s.blocks St.avail ∧
  s.used.bytes = stateBytes c s.blocks St.used

instance (c : Cfg) (s : Heap) : Decidable (WF c s) := by
  unfold WF
  infer_instance

/-- The concrete layout of `el_malloc.h`: a 32-byte header
(`size_t size; char state; el_blockhead_t *prev, *next;` with padding),
an 8-byte footer (`size_t size`), 4096-byte pages; overhead 40 bytes. -/
def bugCfg : Cfg := ⟨32, 8, 4096⟩

/-- The state `el_init` builds from a 4096-byte initial heap: one
available block of size `4096 - 40 = 4056`. -/
def bugS0 : Heap :=
  { blocks := [⟨4056, 4056, St.avail⟩]
    heapBytes := 4096
    avail := { members := [0], length := 1, bytes := 4096 }
    used := { members := [], length := 0, bytes := 0 } }

/-- State after `el_malloc(1000)`, `el_malloc(3016)` (which takes the
whole remainder, refusing the split), and `el_free` of the first block:
heap `[available 1000 | used 3016]` with the used block topmost. -/
def bugPre : Heap :=
  el_free bugCfg (el_malloc bugCfg (el_malloc bugCfg bugS0 1000).1 3016).1 32

/-- State after additionally releasing the topmost block (payload
offset `1072 = 1040 + 32`). -/
def bugFinal : Heap := el_free bugCfg bugPre 1072

end ElMalloc

namespace ElMalloc

theorem spanSum_nil (c : Cfg) : spanSum c [] = 0 := rfl

theorem spanSum_cons (c : Cfg) (b : Blk) (bs : List Blk) :
    spanSum c (b :: bs) = (b.size + c.OV) + spanSum c bs := by
  simp [spanSum]

theorem spanSum_append (c : Cfg) (u v : List Blk) :
    spanSum c (u ++ v) = spanSum c u + spanSum c v := by
  simp [spanSum]

theorem le_spanSum_of_ne_nil (c : Cfg) (bs : List Blk) (h : bs ≠ []) :
    c.OV ≤ spanSum c bs := by
  cases bs with
  | nil => exact absurd rfl h
  | cons b bs => rw [spanSum_cons]; omega

theorem spanSum_eq_zero (c : Cfg) (hOV : 0 < c.OV) (bs : List Blk)
    (h : spanSum c bs = 0) : bs = [] := by
  cases bs with
  | nil => rfl
  | cons b bs => rw [spanSum_cons] at h; omega

theorem findBlk_none_of_lt (c : Cfg) (bs : List Blk) (base o : Nat) (h : o < base) :
    findBlk c base bs o = none := by
  induction bs generalizing base with
  | nil => rfl
  | cons b bs ih =>
      simp only [findBlk]
      rw [if_neg (by omega), ih _ (by omega)]
      rfl

theorem findBlk_append_left (c : Cfg) (u v : List Blk) (base o : Nat) (p : Nat × Blk)
    (h : findBlk c base u o = some p) : findBlk c base (u ++ v) o = some p := by
  induction u generalizing base p with
  | nil => simp [findBlk] at h
  | cons b u ih =>
      simp only [findBlk, List.append_eq] at h ⊢
      by_cases hob : o = base
      · rw [if_pos hob] at h ⊢; exact h
      · rw [if_neg hob] at h ⊢
        cases hfu : findBlk c (base + (b.size + c.OV)) u o with
        | none => rw [hfu] at h; simp at h
        | some q =>
            rw [hfu] at h
            rw [ih _ q hfu]
            exact h

theorem findBlk_append_right (c : Cfg) (u v : List Blk) (base o : Nat)
    (h : findBlk c base u o = none) :
    findBlk c base (u ++ v) o =
      (findBlk c (base + spanSum c u) v o).map (fun p => (p.1 + u.length, p.2)) := by
  induction u generalizing base with
  | nil =>
      simp only [List.nil_append, spanSum_nil, Nat.add_zero, List.length_nil]
      cases hv : findBlk c base v o <;> simp
  | cons b u ih =>
      simp only [findBlk, List.append_eq] at h ⊢
      by_cases hob : o = base
      · rw [if_pos hob] at h; simp at h
      · rw [if_neg hob] at h ⊢
        cases hfu : findBlk c (base + (b.size + c.OV)) u o with
        | some q => rw [hfu] at h; simp at h
        | none =>
            rw [ih _ hfu]
            rw [spanSum_cons]
            have hb : base + (b.size + c.OV) + spanSum c u
                = base + ((b.size + c.OV) + spanSum c u) := by omega
            rw [hb]
            cases hv : findBlk c (base + ((b.size + c.OV) + spanSum c u)) v o <;>
              simp [List.length_cons] <;> omega

theorem findBlk_offAt (c : Cfg) (hOV : 0 < c.OV) (bs : List Blk) (base i : Nat)
    (hi : i < bs.length) :
    findBlk c base bs (base + spanSum c (bs.take i)) = some (i, bs[i]) := by
  induction bs generalizing base i with
  | nil => simp at hi
  | cons b bs ih =>
      cases i with
      | zero => simp [findBlk, spanSum]
      | succ i =>
          simp only [List.take_succ_cons, spanSum_cons, findBlk]
          rw [if_neg (by omega)]
          have hlt : i < bs.length := by simpa using hi
          have harr : base + ((b.size + c.OV) + spanSum c (bs.take i))
              = (base + (b.size + c.OV)) + spanSum c (bs.take i) := by omega
          rw [harr, ih (base + (b.size + c.OV)) i hlt]
          simp

theorem findBlk_spec (c : Cfg) (bs : List Blk) (base o i : Nat) (b : Blk)
    (h : findBlk c base bs o = some (i, b)) :
    i < bs.length ∧ bs[i]? = some b ∧ o = base + spanSum c (bs.take i) := by
  induction bs generalizing base i b with
  | nil => simp [findBlk] at h
  | cons x bs ih =>
      simp only [findBlk] at h
      by_cases hob : o = base
      · rw [if_pos hob] at h
        simp only [Option.some.injEq, Prod.mk.injEq] at h
        obtain ⟨hi, hb⟩ := h
        subst hi
        subst hb
        exact ⟨by simp, by simp, by simp [hob, spanSum]⟩
      · rw [if_neg hob] at h
        cases hfu : findBlk c (base + (x.size + c.OV)) bs o with
        | none => rw [hfu] at h; simp at h
        | some q =>
            obtain ⟨i', b'⟩ := q
            rw [hfu] at h
            simp only [Option.map_some', Option.some.injEq, Prod.mk.injEq] at h
            obtain ⟨hi, hb⟩ := h
            subst hb
            obtain ⟨hq1, hq2, hq3⟩ := ih (base + (x.size + c.OV)) i' b' hfu
            subst hi
            refine ⟨by simpa using hq1, by simpa using hq2, ?_⟩
            rw [List.take_succ_cons, spanSum_cons]
            omega

theorem offAt_zero (c : Cfg) (bs : List Blk) : offAt c bs 0 = 0 := rfl

theorem offAt_succ (c : Cfg) (bs : List Blk) (i : Nat) (hi : i < bs.length) :
    offAt c bs (i + 1) = offAt c bs i + (bs[i].size + c.OV) := by
  unfold offAt
  rw [List.take_succ, List.getElem?_eq_getElem hi]
  have htl : (some bs[i]).toList = [bs[i]] := rfl
  rw [htl, spanSum_append]
  have hone : spanSum c [bs[i]] = bs[i].size + c.OV := by simp [spanSum]
  rw [hone]

theorem spanSum_decomp (c : Cfg) (bs : List Blk) (i : Nat) :
    spanSum c bs = offAt c bs i + spanSum c (bs.drop i) := by
  conv_lhs => rw [← List.take_append_drop i bs]
  rw [spanSum_append]
  rfl

theorem findBlk_offAt_zero (c : Cfg) (hOV : 0 < c.OV) (bs : List Blk) (i : Nat)
    (hi : i < bs.length) :
    findBlk c 0 bs (offAt c bs i) = some (i, bs[i]) := by
  have h := findBlk_offAt c hOV bs 0 i hi
  rwa [Nat.zero_add] at h

theorem blkAt_offAt (c : Cfg) (hOV : 0 < c.OV) (bs : List Blk) (i : Nat)
    (hi : i < bs.length) :
    blkAt c bs (offAt c bs i) = some bs[i] := by
  unfold blkAt
  rw [findBlk_offAt_zero c hOV bs i hi]
  rfl

theorem el_block_above_eq (c : Cfg) (hOV : 0 < c.OV) (s : Heap)
    (hcov : spanSum c s.blocks = s.heapBytes) (i : Nat) (hi : i < s.blocks.length) :
    el_block_above c s (offAt c s.blocks i) =
      if i + 1 < s.blocks.length then some (offAt c s.blocks (i + 1)) else none := by
  unfold el_block_above
  rw [blkAt_offAt c hOV s.blocks i hi]
  dsimp only
  have hoff : offAt c s.blocks i + (s.blocks[i].size + c.OV) = offAt c s.blocks (i + 1) :=
    (offAt_succ c s.blocks i hi).symm
  rw [hoff]
  have hdec := spanSum_decomp c s.blocks (i + 1)
  by_cases hlt : i + 1 < s.blocks.length
  · have hne : s.blocks.drop (i + 1) ≠ [] := by
      intro hnil
      have := congrArg List.length hnil
      rw [List.length_drop] at this
      simp at this
      omega
    have hpos := le_spanSum_of_ne_nil c (s.blocks.drop (i + 1)) hne
    rw [if_neg (by omega), if_pos hlt]
  · have hnil : s.blocks.drop (i + 1) = [] := List.drop_eq_nil_of_le (by omega)
    rw [hnil, spanSum_nil] at hdec
    rw [if_pos (by omega), if_neg hlt]

theorem el_block_below_eq (c : Cfg) (hHead : 0 < c.headSz) (s : Heap)
    (hmir : ∀ b ∈ s.blocks, b.foot = b.size) (i : Nat) (hi : i < s.blocks.length) :
    el_block_below c s (offAt c s.blocks i) =
      if i = 0 then none else some (offAt c s.blocks (i - 1)) := by
  have hOV : 0 < c.OV := by unfold Cfg.OV; omega
  unfold el_block_below
  cases i with
  | zero => rw [offAt_zero, if_pos (Nat.zero_le _)]; rfl
  | succ j =>
      have hne : s.blocks.take (j + 1) ≠ [] := by
        intro hnil
        have hlen := congrArg List.length hnil
        rw [List.length_take] at hlen
        simp only [List.length_nil] at hlen
        omega
      have hbig : c.OV ≤ offAt c s.blocks (j + 1) := le_spanSum_of_ne_nil c _ hne
      have hbig2 : c.headSz + c.footSz ≤ offAt c s.blocks (j + 1) := hbig
      have hfsz : ¬(offAt c s.blocks (j + 1) ≤ c.footSz) := by omega
      rw [if_neg hfsz, findBlk_offAt_zero c hOV s.blocks (j + 1) hi]
      dsimp only
      have hj : j < s.blocks.length := by omega
      rw [List.getElem?_eq_getElem hj]
      dsimp only
      have hmj : s.blocks[j].foot = s.blocks[j].size :=
        hmir s.blocks[j] (List.getElem_mem hj)
      have hoffj := offAt_succ c s.blocks j hj
      rw [hmj, if_neg (by omega : ¬(j + 1 = 0))]
      have harith : offAt c s.blocks (j + 1) - (s.blocks[j].size + c.OV)
          = offAt c s.blocks j := by omega
      rw [harith]
      simp

theorem findBlk_at_append (c : Cfg) (hOV : 0 < c.OV) (u w : List Blk) (b : Blk)
    (base : Nat) :
    findBlk c base (u ++ b :: w) (base + spanSum c u) = some (u.length, b) := by
  induction u generalizing base with
  | nil => simp [findBlk, spanSum]
  | cons x u ih =>
      simp only [List.cons_append, findBlk, spanSum_cons, List.append_eq]
      rw [if_neg (by omega)]
      have harr : base + ((x.size + c.OV) + spanSum c u)
          = (base + (x.size + c.OV)) + spanSum c u := by omega
      rw [harr, ih (base + (x.size + c.OV))]
      simp

theorem findBlk_at_append_zero (c : Cfg) (hOV : 0 < c.OV) (u w : List Blk) (b : Blk) :
    findBlk c 0 (u ++ b :: w) (spanSum c u) = some (u.length, b) := by
  have h := findBlk_at_append c hOV u w b 0
  rwa [Nat.zero_add] at h

theorem blkAt_at_append (c : Cfg) (hOV : 0 < c.OV) (u w : List Blk) (b : Blk) :
    blkAt c (u ++ b :: w) (spanSum c u) = some b := by
  unfold blkAt
  rw [findBlk_at_append_zero c hOV u w b]
  rfl

theorem set_at_append (u w : List α) (a b : α) :
    (u ++ a :: w).set u.length b = u ++ b :: w := by
  induction u with
  | nil => rfl
  | cons x u ih => simp [List.set, ih]

theorem drop_two_at_append (u w : List Blk) (a b : Blk) :
    (u ++ a :: b :: w).drop (u.length + 2) = w := by
  induction u with
  | nil => rfl
  | cons x u ih => simpa using ih

theorem take_at_append (u w : List α) : (u ++ w).take u.length = u := by
  induction u with
  | nil => rfl
  | cons x u ih => simpa using ih

theorem spanSum_take_at_append (c : Cfg) (u w : List Blk) :
    spanSum c ((u ++ w).take u.length) = spanSum c u := by
  rw [take_at_append]

theorem restore_at_append (bs : List Blk) (i : Nat) (hi : i < bs.length) :
    bs.take i ++ bs[i] :: bs.drop (i + 1) = bs := by
  conv_rhs => rw [← List.take_append_drop i bs]
  rw [List.drop_eq_getElem_cons hi]

theorem offBlocks_append (c : Cfg) (base : Nat) (u w : List Blk) :
    offBlocks c base (u ++ w)
      = offBlocks c base u ++ offBlocks c (base + spanSum c u) w := by
  induction u generalizing base with
  | nil => simp [offBlocks, spanSum]
  | cons x u ih =>
      simp only [List.cons_append, offBlocks, spanSum_cons, List.append_eq]
      rw [ih (base + (x.size + c.OV))]
      have harr : base + (x.size + c.OV) + spanSum c u
          = base + ((x.size + c.OV) + spanSum c u) := by omega
      rw [harr]

theorem offBlocks_fst_bounds (c : Cfg) (base : Nat) (u : List Blk) :
    ∀ p ∈ offBlocks c base u, base ≤ p.1 ∧ p.1 + c.OV ≤ base + spanSum c u := by
  induction u generalizing base with
  | nil => simp [offBlocks]
  | cons x u ih =>
      intro p hp
      simp only [offBlocks, List.mem_cons] at hp
      rcases hp with hp | hp
      · subst hp
        rw [spanSum_cons]
        refine ⟨Nat.le_refl _, by omega⟩
      · have := ih (base + (x.size + c.OV)) p hp
        rw [spanSum_cons]
        omega

theorem segMembers_nil (c : Cfg) (base : Nat) (st : St) :
    segMembers c base [] st = [] := rfl

theorem segMembers_cons (c : Cfg) (base : Nat) (b : Blk) (bs : List Blk) (st : St) :
    segMembers c base (b :: bs) st =
      if b.st = st then base :: segMembers c (base + (b.size + c.OV)) bs st
      else segMembers c (base + (b.size + c.OV)) bs st := by
  unfold segMembers
  rw [show offBlocks c base (b :: bs)
      = (base, b) :: offBlocks c (base + (b.size + c.OV)) bs from rfl]
  by_cases h : b.st = st
  · simp [List.filter_cons, h]
  · simp [List.filter_cons, h]

theorem segMembers_append (c : Cfg) (base : Nat) (u w : List Blk) (st : St) :
    segMembers c base (u ++ w) st =
      segMembers c base u st ++ segMembers c (base + spanSum c u) w st := by
  unfold segMembers
  rw [offBlocks_append, List.filter_append, List.map_append]

theorem segMembers_bounds (c : Cfg) (base : Nat) (u : List Blk) (st : St) :
    ∀ o ∈ segMembers c base u st, base ≤ o ∧ o + c.OV ≤ base + spanSum c u := by
  intro o ho
  unfold segMembers at ho
  obtain ⟨p, hp, hpo⟩ := List.mem_map.mp ho
  have hpmem := (List.mem_filter.mp hp).1
  have := offBlocks_fst_bounds c base u p hpmem
  omega

theorem stateCount_append (u w : List Blk) (st : St) :
    stateCount (u ++ w) st = stateCount u st + stateCount w st := by
  unfold stateCount
  rw [List.filter_append, List.length_append]

theorem stateCount_cons (b : Blk) (bs : List Blk) (st : St) :
    stateCount (b :: bs) st =
      (if b.st = st then 1 else 0) + stateCount bs st := by
  unfold stateCount
  rw [List.filter_cons]
  by_cases h : b.st = st
  · rw [if_pos (by simpa using h), if_pos h]
    simp [List.length_cons]
    omega
  · rw [if_neg (by simpa using h), if_neg h]
    simp

theorem stateBytes_append (c : Cfg) (u w : List Blk) (st : St) :
    stateBytes c (u ++ w) st = stateBytes c u st + stateBytes c w st := by
  unfold stateBytes
  rw [List.filter_append, List.map_append, List.sum_append]

theorem stateBytes_cons (c : Cfg) (b : Blk) (bs : List Blk) (st : St) :
    stateBytes c (b :: bs) st =
      (if b.st = st then b.size + c.OV else 0) + stateBytes c bs st := by
  unfold stateBytes
  rw [List.filter_cons]
  by_cases h : b.st = st
  · rw [if_pos (by simpa using h), if_pos h]
    simp
  · rw [if_neg (by simpa using h), if_neg h]
    simp

theorem blkAt_findBlk (c : Cfg) (bs : List Blk) (o : Nat) (b : Blk)
    (h : blkAt c bs o = some b) : ∃ i, findBlk c 0 bs o = some (i, b) := by
  unfold blkAt at h
  cases hf : findBlk c 0 bs o with
  | none => rw [hf] at h; simp at h
  | some p =>
      obtain ⟨i, b'⟩ := p
      rw [hf] at h
      simp at h
      subst h
      exact ⟨i, rfl⟩

theorem el_find_first_avail_spec (c : Cfg) (s : Heap) (n o : Nat)
    (h : el_find_first_avail c s n = some o) :
    o ∈ s.avail.members ∧
      ∃ i b, findBlk c 0 s.blocks o = some (i, b) ∧ b.st = St.avail ∧ n ≤ b.size := by
  unfold el_find_first_avail at h
  have hmem := List.mem_of_find?_eq_some h
  have hp := List.find?_some h
  refine ⟨hmem, ?_⟩
  cases hfb : blkAt c s.blocks o with
  | none => rw [hfb] at hp; simp at hp
  | some b =>
      rw [hfb] at hp
      simp only [Bool.and_eq_true, beq_iff_eq, decide_eq_true_eq] at hp
      obtain ⟨i, hi⟩ := blkAt_findBlk c s.blocks o b hfb
      exact ⟨i, b, hi, hp.1, hp.2⟩

theorem el_split_block_eq_some (c : Cfg) (s : Heap) (o n i : Nat) (b : Blk)
    (hblk : findBlk c 0 s.blocks o = some (i, b)) (hsp : n + c.OV ≤ b.size) :
    el_split_block c s o n =
      ({ s with blocks :=
          s.blocks.take i
            ++ (⟨n, n, b.st⟩ : Blk)
            :: (⟨b.size - (n + c.OV), b.size - (n + c.OV), St.avail⟩ : Blk)
            :: s.blocks.drop (i + 1) },
       some (o + (n + c.OV))) := by
  unfold el_split_block
  rw [hblk]
  dsimp only
  rw [if_neg (by omega)]

theorem el_split_block_eq_none (c : Cfg) (s : Heap) (o n i : Nat) (b : Blk)
    (hblk : findBlk c 0 s.blocks o = some (i, b)) (hsp : b.size < n + c.OV) :
    el_split_block c s o n = (s, none) := by
  unfold el_split_block
  rw [hblk]
  dsimp only
  rw [if_pos hsp]

theorem length_take_of_le {α : Type} (u : List α) (i : Nat) (hi : i ≤ u.length) :
    (u.take i).length = i := by
  rw [List.length_take]
  omega

theorem set_at_append_idx {α : Type} (u w : List α) (a b : α) (i : Nat)
    (hi : u.length = i) : (u ++ a :: w).set i b = u ++ b :: w := by
  subst hi
  exact set_at_append u w a b

theorem el_malloc_split_eq (c : Cfg) (hOV : 0 < c.OV) (s : Heap) (n o i : Nat) (b : Blk)
    (hfind : el_find_first_avail c s n = some o)
    (hblk : findBlk c 0 s.blocks o = some (i, b))
    (hsp : n + c.OV ≤ b.size) :
    el_malloc c s n =
      ({ blocks := s.blocks.take i
            ++ (⟨n, n, St.used⟩ : Blk)
            :: (⟨b.size - (n + c.OV), b.size - (n + c.OV), St.avail⟩ : Blk)
            :: s.blocks.drop (i + 1)
         heapBytes := s.heapBytes
         avail := { members := (o + (n + c.OV)) :: s.avail.members.erase o
                    length := s.avail.length - 1 + 1
                    bytes := s.avail.bytes - (b.size + c.OV)
                              + ((b.size - (n + c.OV)) + c.OV) }
         used := { members := o :: s.used.members
                   length := s.used.length + 1
                   bytes := s.used.bytes + (n + c.OV) } },
       some (o + c.headSz)) := by
  obtain ⟨hi, hib, hoff⟩ := findBlk_spec c s.blocks 0 o i b hblk
  rw [Nat.zero_add] at hoff
  have hlen : (s.blocks.take i).length = i := length_take_of_le _ _ (Nat.le_of_lt hi)
  unfold el_malloc
  rw [hfind]
  dsimp only
  rw [el_split_block_eq_some c
    { blocks := s.blocks, heapBytes := s.heapBytes,
      avail := el_remove_block c s.blocks s.avail o, used := s.used } o n i b hblk hsp]
  dsimp only
  -- resolve the block at the remainder offset in the spliced heap
  have hro : blkAt c
      (s.blocks.take i
        ++ (⟨n, n, b.st⟩ : Blk)
        :: (⟨b.size - (n + c.OV), b.size - (n + c.OV), St.avail⟩ : Blk)
        :: s.blocks.drop (i + 1)) (o + (n + c.OV))
      = some ⟨b.size - (n + c.OV), b.size - (n + c.OV), St.avail⟩ := by
    have hsplit2 : s.blocks.take i
        ++ (⟨n, n, b.st⟩ : Blk)
        :: (⟨b.size - (n + c.OV), b.size - (n + c.OV), St.avail⟩ : Blk)
        :: s.blocks.drop (i + 1)
        = (s.blocks.take i ++ [(⟨n, n, b.st⟩ : Blk)])
          ++ (⟨b.size - (n + c.OV), b.size - (n + c.OV), St.avail⟩ : Blk)
          :: s.blocks.drop (i + 1) := by simp
    rw [hsplit2]
    have hspan : spanSum c (s.blocks.take i ++ [(⟨n, n, b.st⟩ : Blk)])
        = o + (n + c.OV) := by
      rw [spanSum_append, ← hoff]
      simp [spanSum]
    rw [← hspan]
    exact blkAt_at_append c hOV _ _ _
  -- resolve the shrunk block at `o` in the spliced heap
  have hfo : findBlk c 0
      (s.blocks.take i
        ++ (⟨n, n, b.st⟩ : Blk)
        :: (⟨b.size - (n + c.OV), b.size - (n + c.OV), St.avail⟩ : Blk)
        :: s.blocks.drop (i + 1)) o
      = some (i, ⟨n, n, b.st⟩) := by
    have h1 := findBlk_at_append_zero c hOV (s.blocks.take i)
      ((⟨b.size - (n + c.OV), b.size - (n + c.OV), St.avail⟩ : Blk)
        :: s.blocks.drop (i + 1)) (⟨n, n, b.st⟩ : Blk)
    rw [hlen, ← hoff] at h1
    exact h1
  unfold el_add_block_front
  rw [hro]
  dsimp only
  unfold setState
  dsimp only
  rw [hfo]
  dsimp only
  rw [set_at_append_idx _ _ _ _ _ hlen]
  have hfinal : blkAt c
      (s.blocks.take i
        ++ (⟨n, n, St.used⟩ : Blk)
        :: (⟨b.size - (n + c.OV), b.size - (n + c.OV), St.avail⟩ : Blk)
        :: s.blocks.drop (i + 1)) o
      = some ⟨n, n, St.used⟩ := by
    rw [hoff]
    exact blkAt_at_append c hOV _ _ _
  have hbo : blkAt c s.blocks o = some b := by
    unfold blkAt
    rw [hblk]
    rfl
  unfold el_remove_block
  rw [hfinal, hbo]


theorem el_malloc_nosplit_eq (c : Cfg) (hOV : 0 < c.OV) (s : Heap) (n o i : Nat) (b : Blk)
    (hfind : el_find_first_avail c s n = some o)
    (hblk : findBlk c 0 s.blocks o = some (i, b))
    (hsp : b.size < n + c.OV) :
    el_malloc c s n =
      ({ blocks := s.blocks.take i
            ++ (⟨b.size, b.foot, St.used⟩ : Blk) :: s.blocks.drop (i + 1)
         heapBytes := s.heapBytes
         avail := { members := s.avail.members.erase o
                    length := s.avail.length - 1
                    bytes := s.avail.bytes - (b.size + c.OV) }
         used := { members := o :: s.used.members
                   length := s.used.length + 1
                   bytes := s.used.bytes + (b.size + c.OV) } },
       some (o + c.headSz)) := by
  obtain ⟨hi, hib, hoff⟩ := findBlk_spec c s.blocks 0 o i b hblk
  rw [Nat.zero_add] at hoff
  have hlen : (s.blocks.take i).length = i := length_take_of_le _ _ (Nat.le_of_lt hi)
  have hgetb : s.blocks[i] = b := by
    have := List.getElem?_eq_getElem hi
    rw [hib] at this
    exact (Option.some.injEq _ _).mp this.symm
  have hdecomp : s.blocks = s.blocks.take i ++ b :: s.blocks.drop (i + 1) := by
    conv_lhs => rw [← restore_at_append s.blocks i hi]
    rw [hgetb]
  unfold el_malloc
  rw [hfind]
  dsimp only
  rw [el_split_block_eq_none c
    { blocks := s.blocks, heapBytes := s.heapBytes,
      avail := el_remove_block c s.blocks s.avail o, used := s.used } o n i b hblk hsp]
  dsimp only
  unfold setState
  dsimp only
  rw [hblk]
  dsimp only
  have hset : s.blocks.set i (⟨b.size, b.foot, St.used⟩ : Blk)
      = s.blocks.take i ++ (⟨b.size, b.foot, St.used⟩ : Blk) :: s.blocks.drop (i + 1) := by
    conv_lhs => rw [hdecomp]
    exact set_at_append_idx _ _ _ _ _ hlen
  have hshape : ({ b with st := St.used } : Blk) = (⟨b.size, b.foot, St.used⟩ : Blk) := rfl
  rw [hshape, hset]
  have hfinal : blkAt c
      (s.blocks.take i ++ (⟨b.size, b.foot, St.used⟩ : Blk) :: s.blocks.drop (i + 1)) o
      = some ⟨b.size, b.foot, St.used⟩ := by
    rw [hoff]
    exact blkAt_at_append c hOV _ _ _
  have hbo : blkAt c s.blocks o = some b := by
    unfold blkAt
    rw [hblk]
    rfl
  unfold el_add_block_front el_remove_block
  rw [hfinal, hbo]

theorem el_free_eq (c : Cfg) (hOV : 0 < c.OV) (s : Heap) (p i : Nat) (b : Blk)
    (hblk : findBlk c 0 s.blocks (p - c.headSz) = some (i, b)) :
    el_free c s p =
      el_merge_block_with_above c
        { blocks := s.blocks.take i
            ++ (⟨b.size, b.foot, St.avail⟩ : Blk) :: s.blocks.drop (i + 1)
          heapBytes := s.heapBytes
          avail := { members := (p - c.headSz) :: s.avail.members
                     length := s.avail.length + 1
                     bytes := s.avail.bytes + (b.size + c.OV) }
          used := { members := s.used.members.erase (p - c.headSz)
                    length := s.used.length - 1
                    bytes := s.used.bytes - (b.size + c.OV) } }
        (some (p - c.headSz)) := by
  obtain ⟨hi, hib, hoff⟩ := findBlk_spec c s.blocks 0 (p - c.headSz) i b hblk
  rw [Nat.zero_add] at hoff
  have hlen : (s.blocks.take i).length = i := length_take_of_le _ _ (Nat.le_of_lt hi)
  have hgetb : s.blocks[i] = b := by
    have := List.getElem?_eq_getElem hi
    rw [hib] at this
    exact (Option.some.injEq _ _).mp this.symm
  have hdecomp : s.blocks = s.blocks.take i ++ b :: s.blocks.drop (i + 1) := by
    conv_lhs => rw [← restore_at_append s.blocks i hi]
    rw [hgetb]
  have hbo : blkAt c s.blocks (p - c.headSz) = some b := by
    unfold blkAt
    rw [hblk]
    rfl
  unfold el_free
  dsimp only
  rw [hbo]
  dsimp only
  unfold setState
  dsimp only
  rw [hblk]
  dsimp only
  have hshape : ({ b with st := St.avail } : Blk) = (⟨b.size, b.foot, St.avail⟩ : Blk) := rfl
  have hset : s.blocks.set i (⟨b.size, b.foot, St.avail⟩ : Blk)
      = s.blocks.take i ++ (⟨b.size, b.foot, St.avail⟩ : Blk) :: s.blocks.drop (i + 1) := by
    conv_lhs => rw [hdecomp]
    exact set_at_append_idx _ _ _ _ _ hlen
  rw [hshape, hset]
  have hfinal : blkAt c
      (s.blocks.take i ++ (⟨b.size, b.foot, St.avail⟩ : Blk) :: s.blocks.drop (i + 1))
      (p - c.headSz)
      = some ⟨b.size, b.foot, St.avail⟩ := by
    rw [hoff]
    exact blkAt_at_append c hOV _ _ _
  unfold el_add_block_front el_remove_block
  rw [hfinal, hbo]

theorem mergeStep_eq (c : Cfg) (hOV : 0 < c.OV) (s : Heap) (o ha i : Nat) (x y : Blk)
    (ho : findBlk c 0 s.blocks o = some (i, x))
    (hha : findBlk c 0 s.blocks ha = some (i + 1, y)) :
    mergeStep c s o ha = some
      { blocks := s.blocks.take i
          ++ (⟨x.size + y.size + c.OV, x.size + y.size + c.OV, x.st⟩ : Blk)
          :: s.blocks.drop (i + 2)
        heapBytes := s.heapBytes
        avail := { members := o :: ((s.avail.members.erase ha).erase o)
                   length := s.avail.length - 1 - 1 + 1
                   bytes := s.avail.bytes - (y.size + c.OV) - (x.size + c.OV)
                             + ((x.size + y.size + c.OV) + c.OV) }
        used := s.used } := by
  obtain ⟨hi, hib, hoff⟩ := findBlk_spec c s.blocks 0 o i x ho
  rw [Nat.zero_add] at hoff
  have hby : blkAt c s.blocks ha = some y := by
    unfold blkAt
    rw [hha]
    rfl
  have hbx : blkAt c s.blocks o = some x := by
    unfold blkAt
    rw [ho]
    rfl
  have hmerged : blkAt c
      (s.blocks.take i
        ++ (⟨x.size + y.size + c.OV, x.size + y.size + c.OV, x.st⟩ : Blk)
        :: s.blocks.drop (i + 2)) o
      = some ⟨x.size + y.size + c.OV, x.size + y.size + c.OV, x.st⟩ := by
    rw [hoff]
    exact blkAt_at_append c hOV _ _ _
  unfold mergeStep
  rw [ho, hha]
  dsimp only
  rw [if_pos rfl]
  unfold el_remove_block el_add_block_front
  rw [hby, hbx, hmerged]

theorem mergeFuel_above_none (c : Cfg) (f : Nat) (s : Heap) (o : Nat) (lower : Blk)
    (h1 : blkAt c s.blocks o = some lower) (h2 : lower.st = St.avail)
    (h3 : el_block_above c s o = none) :
    mergeFuel c (f + 1) s (some o) = s := by
  simp only [mergeFuel]
  rw [h1]
  dsimp only
  rw [if_pos h2, h3]

theorem mergeFuel_above_not_avail (c : Cfg) (f : Nat) (s : Heap) (o ha : Nat)
    (lower higher : Blk)
    (h1 : blkAt c s.blocks o = some lower) (h2 : lower.st = St.avail)
    (h3 : el_block_above c s o = some ha)
    (h4 : blkAt c s.blocks ha = some higher) (h5 : ¬ higher.st = St.avail) :
    mergeFuel c (f + 1) s (some o) =
      (match el_block_below c s o with
       | none => s
       | some la =>
           match blkAt c s.blocks la with
           | none => s
           | some lowerer =>
               if lowerer.st = St.avail then mergeFuel c f s (some la) else s) := by
  simp only [mergeFuel]
  rw [h1]
  dsimp only
  rw [if_pos h2, h3]
  dsimp only
  rw [h4]
  dsimp only
  rw [if_neg h5]

theorem mergeFuel_merge (c : Cfg) (f : Nat) (s t : Heap) (o ha : Nat)
    (lower higher : Blk)
    (h1 : blkAt c s.blocks o = some lower) (h2 : lower.st = St.avail)
    (h3 : el_block_above c s o = some ha)
    (h4 : blkAt c s.blocks ha = some higher) (h5 : higher.st = St.avail)
    (h6 : mergeStep c s o ha = some t) :
    mergeFuel c (f + 1) s (some o) =
      (match el_block_below c (mergeFuel c f t (some o)) o with
       | none => mergeFuel c f t (some o)
       | some la =>
           match blkAt c (mergeFuel c f t (some o)).blocks la with
           | none => mergeFuel c f t (some o)
           | some lowerer =>
               if lowerer.st = St.avail then mergeFuel c f (mergeFuel c f t (some o)) (some la)
               else mergeFuel c f t (some o)) := by
  simp only [mergeFuel]
  rw [h1]
  dsimp only
  rw [if_pos h2, h3]
  dsimp only
  rw [h4]
  dsimp only
  rw [if_pos h5, h6]

theorem segMembers_lt (c : Cfg) (hOV : 0 < c.OV) (base : Nat) (u : List Blk) (st : St) :
    ∀ a ∈ segMembers c base u st, a < base + spanSum c u := by
  intro a ha
  have := segMembers_bounds c base u st a ha
  omega

theorem erase_append_cons (o : Nat) (ac cc : List Nat) (hA : o ∉ ac) :
    (ac ++ o :: cc).erase o = ac ++ cc := by
  rw [List.erase_append_right _ hA, List.erase_cons_head]

theorem el_init_WF (c : Cfg) (ib : Nat) (s : Heap) (h : el_init c ib = some s) :
    WF c s := by
  unfold el_init at h
  by_cases hlt : ib < c.OV
  · rw [if_pos hlt] at h
    simp at h
  · rw [if_neg hlt] at h
    simp only [Option.some.injEq] at h
    subst h
    unfold WF stateMembers
    refine ⟨?_, ?_, ?_, ?_, ?_, ?_, ?_, ?_⟩
    · rw [spanSum_cons, spanSum_nil]
      dsimp only
      omega
    · intro b hb
      simp at hb
      subst hb
      rfl
    · rw [segMembers_cons]
      simp [segMembers_nil]
    · rw [segMembers_cons]
      simp [segMembers_nil]
    · rw [stateCount_cons]
      simp [stateCount]
    · rw [stateCount_cons]
      simp [stateCount]
    · rw [stateBytes_cons]
      simp [stateBytes]
    · rw [stateBytes_cons]
      simp [stateBytes]

theorem WF_malloc (c : Cfg) (hOV : 0 < c.OV) (s : Heap) (n : Nat) (hwf : WF c s) :
    WF c (el_malloc c s n).1 := by
  cases hfind : el_find_first_avail c s n with
  | none =>
      unfold el_malloc
      rw [hfind]
      exact hwf
  | some o =>
      obtain ⟨hmem, i, b, hblk, hst, hsz⟩ := el_find_first_avail_spec c s n o hfind
      obtain ⟨hi, hib, hoff⟩ := findBlk_spec c s.blocks 0 o i b hblk
      rw [Nat.zero_add] at hoff
      have hgetb : s.blocks[i] = b := by
        have := List.getElem?_eq_getElem hi
        rw [hib] at this
        exact (Option.some.injEq _ _).mp this.symm
      have hdecomp : s.blocks = s.blocks.take i ++ b :: s.blocks.drop (i + 1) := by
        conv_lhs => rw [← restore_at_append s.blocks i hi]
        rw [hgetb]
      obtain ⟨hcov, hmir, hav, hus, hal, hul, hab, hub⟩ := hwf
      rw [hdecomp] at hcov hmir hav hus hal hul hab hub
      set u := s.blocks.take i with hu
      set w := s.blocks.drop (i + 1) with hw
      rw [spanSum_append, spanSum_cons] at hcov
      unfold stateMembers at hav hus
      rw [segMembers_append, segMembers_cons, Nat.zero_add] at hav hus
      rw [if_pos hst] at hav
      rw [if_neg (by rw [hst]; intro hco; cases hco)] at hus
      rw [stateCount_append, stateCount_cons, if_pos hst] at hal
      rw [stateCount_append, stateCount_cons,
        if_neg (by rw [hst]; intro hco; cases hco)] at hul
      rw [stateBytes_append, stateBytes_cons, if_pos hst] at hab
      rw [stateBytes_append, stateBytes_cons,
        if_neg (by rw [hst]; intro hco; cases hco)] at hub
      rw [← hoff] at hav hus
      by_cases hsp : n + c.OV ≤ b.size
      · rw [el_malloc_split_eq c hOV s n o i b hfind hblk hsp]
        have hnoA : o ∉ segMembers c 0 u St.avail := by
          intro hin
          have := segMembers_lt c hOV 0 u St.avail o hin
          omega
        unfold WF stateMembers
        rw [← hu, ← hw]
        refine ⟨?_, ?_, ?_, ?_, ?_, ?_, ?_, ?_⟩
        · dsimp only
          rw [spanSum_append, spanSum_cons, spanSum_cons]
          try dsimp only
          omega
        · dsimp only
          intro bb hbb
          rw [List.mem_append, List.mem_cons, List.mem_cons] at hbb
          rcases hbb with hbb | hbb | hbb | hbb
          · exact hmir bb (by rw [List.mem_append]; exact Or.inl hbb)
          · subst hbb; rfl
          · subst hbb; rfl
          · exact hmir bb
              (by rw [List.mem_append, List.mem_cons]; exact Or.inr (Or.inr hbb))
        · dsimp only
          rw [segMembers_append, segMembers_cons, segMembers_cons, Nat.zero_add, ← hoff]
          rw [if_neg (by intro hco; cases hco), if_pos rfl]
          have hbase : o + (n + c.OV) + (b.size - (n + c.OV) + c.OV)
              = o + (b.size + c.OV) := by omega
          rw [hbase]
          have h1 : List.Perm (s.avail.members.erase o)
              ((segMembers c 0 u St.avail
                ++ o :: segMembers c (o + (b.size + c.OV)) w St.avail).erase o) :=
            List.Perm.erase o hav
          rw [erase_append_cons o _ _ hnoA] at h1
          refine List.Perm.trans (List.Perm.cons _ h1) ?_
          exact (List.perm_middle).symm
        · dsimp only
          rw [segMembers_append, segMembers_cons, segMembers_cons, Nat.zero_add, ← hoff]
          rw [if_pos rfl, if_neg (by intro hco; cases hco)]
          have hbase : o + (n + c.OV) + (b.size - (n + c.OV) + c.OV)
              = o + (b.size + c.OV) := by omega
          rw [hbase]
          refine List.Perm.trans (List.Perm.cons _ hus) ?_
          exact (List.perm_middle).symm
        · dsimp only
          rw [stateCount_append, stateCount_cons, stateCount_cons]
          rw [if_neg (by intro hco; cases hco), if_pos rfl]
          try dsimp only
          omega
        · dsimp only
          rw [stateCount_append, stateCount_cons, stateCount_cons]
          rw [if_pos rfl, if_neg (by intro hco; cases hco)]
          try dsimp only
          omega
        · dsimp only
          rw [stateBytes_append, stateBytes_cons, stateBytes_cons]
          rw [if_neg (by intro hco; cases hco), if_pos rfl]
          try dsimp only
          omega
        · dsimp only
          rw [stateBytes_append, stateBytes_cons, stateBytes_cons]
          rw [if_pos rfl, if_neg (by intro hco; cases hco)]
          try dsimp only
          omega
      · rw [el_malloc_nosplit_eq c hOV s n o i b hfind hblk (by omega)]
        have hnoA : o ∉ segMembers c 0 u St.avail := by
          intro hin
          have := segMembers_lt c hOV 0 u St.avail o hin
          omega
        unfold WF stateMembers
        rw [← hu, ← hw]
        refine ⟨?_, ?_, ?_, ?_, ?_, ?_, ?_, ?_⟩
        · dsimp only
          rw [spanSum_append, spanSum_cons]
          try dsimp only
          omega
        · dsimp only
          intro bb hbb
          rw [List.mem_append, List.mem_cons] at hbb
          rcases hbb with hbb | hbb | hbb
          · exact hmir bb (by rw [List.mem_append]; exact Or.inl hbb)
          · subst hbb
            exact hmir b (by rw [List.mem_append, List.mem_cons]; exact Or.inr (Or.inl rfl))
          · exact hmir bb
              (by rw [List.mem_append, List.mem_cons]; exact Or.inr (Or.inr hbb))
        · dsimp only
          rw [segMembers_append, segMembers_cons, Nat.zero_add, ← hoff]
          rw [if_neg (by intro hco; cases hco)]
          have h1 : List.Perm (s.avail.members.erase o)
              ((segMembers c 0 u St.avail
                ++ o :: segMembers c (o + (b.size + c.OV)) w St.avail).erase o) :=
            List.Perm.erase o hav
          rw [erase_append_cons o _ _ hnoA] at h1
          exact h1
        · dsimp only
          rw [segMembers_append, segMembers_cons, Nat.zero_add, ← hoff]
          rw [if_pos rfl]
          refine List.Perm.trans (List.Perm.cons _ hus) ?_
          exact (List.perm_middle).symm
        · dsimp only
          rw [stateCount_append, stateCount_cons]
          rw [if_neg (by intro hco; cases hco)]
          try dsimp only
          omega
        · dsimp only
          rw [stateCount_append, stateCount_cons]
          rw [if_pos rfl]
          try dsimp only
          omega
        · dsimp only
          rw [stateBytes_append, stateBytes_cons]
          rw [if_neg (by intro hco; cases hco)]
          try dsimp only
          omega
        · dsimp only
          rw [stateBytes_append, stateBytes_cons]
          rw [if_pos rfl]
          try dsimp only
          omega

theorem WF_free_pre (c : Cfg) (hOV : 0 < c.OV) (s : Heap) (p i : Nat) (b : Blk)
    (hblk : findBlk c 0 s.blocks (p - c.headSz) = some (i, b))
    (hst : b.st = St.used) (hwf : WF c s) :
    WF c { blocks := s.blocks.take i
             ++ (⟨b.size, b.foot, St.avail⟩ : Blk) :: s.blocks.drop (i + 1)
           heapBytes := s.heapBytes
           avail := { members := (p - c.headSz) :: s.avail.members
                      length := s.avail.length + 1
                      bytes := s.avail.bytes + (b.size + c.OV) }
           used := { members := s.used.members.erase (p - c.headSz)
                     length := s.used.length - 1
                     bytes := s.used.bytes - (b.size + c.OV) } } := by
  obtain ⟨hi, hib, hoff⟩ := findBlk_spec c s.blocks 0 (p - c.headSz) i b hblk
  rw [Nat.zero_add] at hoff
  have hgetb : s.blocks[i] = b := by
    have := List.getElem?_eq_getElem hi
    rw [hib] at this
    exact (Option.some.injEq _ _).mp this.symm
  have hdecomp : s.blocks = s.blocks.take i ++ b :: s.blocks.drop (i + 1) := by
    conv_lhs => rw [← restore_at_append s.blocks i hi]
    rw [hgetb]
  obtain ⟨hcov, hmir, hav, hus, hal, hul, hab, hub⟩ := hwf
  rw [hdecomp] at hcov hmir hav hus hal hul hab hub
  set u := s.blocks.take i with hu
  set w := s.blocks.drop (i + 1) with hw
  rw [spanSum_append, spanSum_cons] at hcov
  unfold stateMembers at hav hus
  rw [segMembers_append, segMembers_cons, Nat.zero_add] at hav hus
  rw [if_neg (by rw [hst]; intro hco; cases hco)] at hav
  rw [if_pos hst] at hus
  rw [stateCount_append, stateCount_cons,
    if_neg (by rw [hst]; intro hco; cases hco)] at hal
  rw [stateCount_append, stateCount_cons, if_pos hst] at hul
  rw [stateBytes_append, stateBytes_cons,
    if_neg (by rw [hst]; intro hco; cases hco)] at hab
  rw [stateBytes_append, stateBytes_cons, if_pos hst] at hub
  rw [← hoff] at hav hus
  have hmirb : b.foot = b.size :=
    hmir b (by rw [List.mem_append, List.mem_cons]; exact Or.inr (Or.inl rfl))
  have hnoA : (p - c.headSz) ∉ segMembers c 0 u St.used := by
    intro hin
    have := segMembers_lt c hOV 0 u St.used (p - c.headSz) hin
    omega
  unfold WF stateMembers
  refine ⟨?_, ?_, ?_, ?_, ?_, ?_, ?_, ?_⟩
  · dsimp only
    rw [spanSum_append, spanSum_cons]
    try dsimp only
    omega
  · dsimp only
    intro bb hbb
    rw [List.mem_append, List.mem_cons] at hbb
    rcases hbb with hbb | hbb | hbb
    · exact hmir bb (by rw [List.mem_append]; exact Or.inl hbb)
    · subst hbb
      exact hmirb
    · exact hmir bb
        (by rw [List.mem_append, List.mem_cons]; exact Or.inr (Or.inr hbb))
  · dsimp only
    rw [segMembers_append, segMembers_cons, Nat.zero_add, ← hoff]
    rw [if_pos rfl]
    refine List.Perm.trans (List.Perm.cons _ hav) ?_
    exact (List.perm_middle).symm
  · dsimp only
    rw [segMembers_append, segMembers_cons, Nat.zero_add, ← hoff]
    rw [if_neg (by intro hco; cases hco)]
    have h1 : List.Perm (s.used.members.erase (p - c.headSz))
        ((segMembers c 0 u St.used
          ++ (p - c.headSz) :: segMembers c ((p - c.headSz) + (b.size + c.OV)) w
              St.used).erase (p - c.headSz)) :=
      List.Perm.erase (p - c.headSz) hus
    rw [erase_append_cons _ _ _ hnoA] at h1
    exact h1
  · dsimp only
    rw [stateCount_append, stateCount_cons, if_pos rfl]
    try dsimp only
    omega
  · dsimp only
    rw [stateCount_append, stateCount_cons, if_neg (by intro hco; cases hco)]
    try dsimp only
    omega
  · dsimp only
    rw [stateBytes_append, stateBytes_cons, if_pos rfl]
    try dsimp only
    omega
  · dsimp only
    rw [stateBytes_append, stateBytes_cons, if_neg (by intro hco; cases hco)]
    try dsimp only
    omega


theorem erase_cons_of_ne (a b : Nat) (l : List Nat) (h : b ≠ a) :
    (b :: l).erase a = b :: l.erase a := by
  rw [List.erase_cons]
  rw [if_neg (by simpa using h)]

theorem WF_mergeStep (c : Cfg) (hOV : 0 < c.OV) (s : Heap) (o ha i : Nat) (x y : Blk)
    (ho : findBlk c 0 s.blocks o = some (i, x))
    (hha : findBlk c 0 s.blocks ha = some (i + 1, y))
    (hx : x.st = St.avail) (hy : y.st = St.avail) (hwf : WF c s) :
    WF c { blocks := s.blocks.take i
             ++ (⟨x.size + y.size + c.OV, x.size + y.size + c.OV, x.st⟩ : Blk)
             :: s.blocks.drop (i + 2)
           heapBytes := s.heapBytes
           avail := { members := o :: ((s.avail.members.erase ha).erase o)
                      length := s.avail.length - 1 - 1 + 1
                      bytes := s.avail.bytes - (y.size + c.OV) - (x.size + c.OV)
                                + ((x.size + y.size + c.OV) + c.OV) }
           used := s.used } := by
  obtain ⟨hi, hib, hoff⟩ := findBlk_spec c s.blocks 0 o i x ho
  rw [Nat.zero_add] at hoff
  obtain ⟨hi2, hib2, hoff2⟩ := findBlk_spec c s.blocks 0 ha (i + 1) y hha
  rw [Nat.zero_add] at hoff2
  have hgetx : s.blocks[i] = x := by
    have := List.getElem?_eq_getElem hi
    rw [hib] at this
    exact (Option.some.injEq _ _).mp this.symm
  have hgety : s.blocks[i + 1] = y := by
    have := List.getElem?_eq_getElem hi2
    rw [hib2] at this
    exact (Option.some.injEq _ _).mp this.symm
  have hha2 : ha = o + (x.size + c.OV) := by
    rw [hoff2, hoff]
    have := offAt_succ c s.blocks i hi
    unfold offAt at this
    rw [hgetx] at this
    exact this
  have hdecomp : s.blocks = s.blocks.take i ++ x :: y :: s.blocks.drop (i + 2) := by
    conv_lhs => rw [← restore_at_append s.blocks i hi]
    rw [hgetx, List.drop_eq_getElem_cons hi2, hgety]
  obtain ⟨hcov, hmir, hav, hus, hal, hul, hab, hub⟩ := hwf
  rw [hdecomp] at hcov hmir hav hus hal hul hab hub
  set u := s.blocks.take i with hu
  set w := s.blocks.drop (i + 2) with hw
  rw [spanSum_append, spanSum_cons, spanSum_cons] at hcov
  unfold stateMembers at hav hus
  rw [segMembers_append, segMembers_cons, segMembers_cons, Nat.zero_add] at hav hus
  rw [if_pos hx, if_pos hy] at hav
  rw [if_neg (by rw [hx]; intro hco; cases hco),
    if_neg (by rw [hy]; intro hco; cases hco)] at hus
  rw [stateCount_append, stateCount_cons, stateCount_cons,
    if_pos hx, if_pos hy] at hal
  rw [stateCount_append, stateCount_cons, stateCount_cons,
    if_neg (by rw [hx]; intro hco; cases hco),
    if_neg (by rw [hy]; intro hco; cases hco)] at hul
  rw [stateBytes_append, stateBytes_cons, stateBytes_cons,
    if_pos hx, if_pos hy] at hab
  rw [stateBytes_append, stateBytes_cons, stateBytes_cons,
    if_neg (by rw [hx]; intro hco; cases hco),
    if_neg (by rw [hy]; intro hco; cases hco)] at hub
  rw [← hoff, ← hha2] at hav hus
  have hCbase : ha + (y.size + c.OV) = o + (x.size + y.size + c.OV + c.OV) := by
    omega
  rw [hCbase] at hav hus
  have hnoA : ∀ a ∈ segMembers c 0 u St.avail, a < o := by
    intro a hmem
    have := segMembers_lt c hOV 0 u St.avail a hmem
    omega
  have hhaA : ha ∉ segMembers c 0 u St.avail := by
    intro hin
    have := hnoA ha hin
    omega
  have hoA : o ∉ segMembers c 0 u St.avail := by
    intro hin
    have := hnoA o hin
    omega
  have hone : o ≠ ha := by omega
  unfold WF stateMembers
  refine ⟨?_, ?_, ?_, ?_, ?_, ?_, ?_, ?_⟩
  · dsimp only
    rw [spanSum_append, spanSum_cons]
    try dsimp only
    omega
  · dsimp only
    intro bb hbb
    rw [List.mem_append, List.mem_cons] at hbb
    rcases hbb with hbb | hbb | hbb
    · exact hmir bb (by rw [List.mem_append]; exact Or.inl hbb)
    · subst hbb
      rfl
    · exact hmir bb
        (by rw [List.mem_append, List.mem_cons, List.mem_cons]
            exact Or.inr (Or.inr (Or.inr hbb)))
  · dsimp only
    rw [segMembers_append, segMembers_cons, Nat.zero_add, ← hoff]
    rw [if_pos hx]
    have hbase2 : o + ((x.size + y.size + c.OV) + c.OV)
        = o + (x.size + y.size + c.OV + c.OV) := by omega
    rw [hbase2]
    have h1 := List.Perm.erase ha hav
    rw [List.erase_append_right _ hhaA, erase_cons_of_ne ha o _ hone,
      List.erase_cons_head] at h1
    have h2 := List.Perm.erase o h1
    rw [erase_append_cons o _ _ hoA] at h2
    refine List.Perm.trans (List.Perm.cons _ h2) ?_
    exact (List.perm_middle).symm
  · dsimp only
    rw [segMembers_append, segMembers_cons, Nat.zero_add, ← hoff]
    rw [if_neg (by rw [hx]; intro hco; cases hco)]
    have hbase2 : o + ((x.size + y.size + c.OV) + c.OV)
        = o + (x.size + y.size + c.OV + c.OV) := by omega
    rw [hbase2]
    exact hus
  · dsimp only
    rw [stateCount_append, stateCount_cons, if_pos hx]
    try dsimp only
    omega
  · dsimp only
    rw [stateCount_append, stateCount_cons,
      if_neg (by rw [hx]; intro hco; cases hco)]
    try dsimp only
    omega
  · dsimp only
    rw [stateBytes_append, stateBytes_cons, if_pos hx]
    try dsimp only
    omega
  · dsimp only
    rw [stateBytes_append, stateBytes_cons,
      if_neg (by rw [hx]; intro hco; cases hco)]
    try dsimp only
    omega

theorem WF_below_part (c : Cfg) (f : Nat) (s1 : Heap) (o : Nat)
    (ih : ∀ (s : Heap) (lo : Option Nat), WF c s → WF c (mergeFuel c f s lo))
    (h1 : WF c s1) :
    WF c (match el_block_below c s1 o with
          | none => s1
          | some la =>
              match blkAt c s1.blocks la with
              | none => s1
              | some lowerer =>
                  if lowerer.st = St.avail then mergeFuel c f s1 (some la) else s1) := by
  cases hb : el_block_below c s1 o with
  | none => exact h1
  | some la =>
      dsimp only
      cases hbl : blkAt c s1.blocks la with
      | none => exact h1
      | some lowerer =>
          dsimp only
          by_cases hl : lowerer.st = St.avail
          · rw [if_pos hl]
            exact ih s1 (some la) h1
          · rw [if_neg hl]
            exact h1

theorem WF_mergeFuel (c : Cfg) (hOV : 0 < c.OV) :
    ∀ (f : Nat) (s : Heap) (lo : Option Nat), WF c s → WF c (mergeFuel c f s lo) := by
  intro f
  induction f with
  | zero =>
      intro s lo h
      cases lo with
      | none => exact h
      | some o => exact h
  | succ f ih =>
      intro s lo h
      cases lo with
      | none => exact h
      | some o =>
          simp only [mergeFuel]
          cases hblo : blkAt c s.blocks o with
          | none => exact h
          | some lower =>
              dsimp only
              by_cases hlav : lower.st = St.avail
              · rw [if_pos hlav]
                cases habv : el_block_above c s o with
                | none => exact h
                | some ha =>
                    dsimp only
                    cases hbha : blkAt c s.blocks ha with
                    | none => exact WF_below_part c f s o ih h
                    | some higher =>
                        dsimp only
                        by_cases hhav : higher.st = St.avail
                        · rw [if_pos hhav]
                          cases hms : mergeStep c s o ha with
                          | none => exact WF_below_part c f s o ih h
                          | some t =>
                              dsimp only
                              obtain ⟨i, hio⟩ := blkAt_findBlk c s.blocks o lower hblo
                              obtain ⟨j, hja⟩ := blkAt_findBlk c s.blocks ha higher hbha
                              by_cases hj : j = i + 1
                              · subst hj
                                have heq := mergeStep_eq c hOV s o ha i lower higher hio hja
                                rw [hms] at heq
                                have ht := (Option.some.injEq _ _).mp heq.symm
                                have hwt : WF c t := by
                                  rw [← ht] at *
                                  exact WF_mergeStep c hOV s o ha i lower higher
                                    hio hja hlav hhav h
                                exact WF_below_part c f _ o ih (ih t (some o) hwt)
                              · exfalso
                                unfold mergeStep at hms
                                rw [hio, hja] at hms
                                dsimp only at hms
                                rw [if_neg hj] at hms
                                cases hms
                        · rw [if_neg hhav]
                          exact WF_below_part c f s o ih h
              · rw [if_neg hlav]
                exact h

theorem stateCount_nil (st : St) : stateCount [] st = 0 := rfl

theorem stateBytes_nil (c : Cfg) (st : St) : stateBytes c [] st = 0 := rfl

theorem WF_free (c : Cfg) (hOV : 0 < c.OV) (s : Heap) (p : Nat) (b : Blk)
    (hb : blkAt c s.blocks (p - c.headSz) = some b) (hst : b.st = St.used)
    (hwf : WF c s) : WF c (el_free c s p) := by
  obtain ⟨i, hblk⟩ := blkAt_findBlk c s.blocks (p - c.headSz) b hb
  rw [el_free_eq c hOV s p i b hblk]
  unfold el_merge_block_with_above
  exact WF_mergeFuel c hOV _ _ _ (WF_free_pre c hOV s p i b hblk hst hwf)

theorem WF_append (c : Cfg) (hHead : 0 < c.headSz) (hPage : c.OV ≤ c.pageBytes)
    (s : Heap) (np : Nat) (hnp : 0 < np) (hwf : WF c s) :
    WF c (el_append_pages_to_heap c s np) := by
  have hOV : 0 < c.OV := by
    unfold Cfg.OV
    omega
  have hnsz : c.OV ≤ np * c.pageBytes := by
    calc c.OV ≤ c.pageBytes := hPage
    _ = 1 * c.pageBytes := by omega
    _ ≤ np * c.pageBytes := Nat.mul_le_mul_right _ hnp
  obtain ⟨hcov, hmir, hav, hus, hal, hul, hab, hub⟩ := hwf
  have hnb : blkAt c
      (s.blocks ++ [(⟨np * c.pageBytes - c.OV, np * c.pageBytes - c.OV, St.avail⟩ : Blk)])
      s.heapBytes
      = some ⟨np * c.pageBytes - c.OV, np * c.pageBytes - c.OV, St.avail⟩ := by
    rw [← hcov]
    exact blkAt_at_append c hOV s.blocks [] _
  have hs2 : WF c
      { blocks := s.blocks
          ++ [(⟨np * c.pageBytes - c.OV, np * c.pageBytes - c.OV, St.avail⟩ : Blk)]
        heapBytes := s.heapBytes + np * c.pageBytes
        avail := { members := s.heapBytes :: s.avail.members
                   length := s.avail.length + 1
                   bytes := s.avail.bytes + ((np * c.pageBytes - c.OV) + c.OV) }
        used := s.used } := by
    unfold WF stateMembers
    refine ⟨?_, ?_, ?_, ?_, ?_, ?_, ?_, ?_⟩
    · dsimp only
      rw [spanSum_append, spanSum_cons, spanSum_nil, hcov]
      try dsimp only
      omega
    · dsimp only
      intro bb hbb
      rw [List.mem_append, List.mem_cons] at hbb
      rcases hbb with hbb | hbb | hbb
      · exact hmir bb hbb
      · subst hbb
        rfl
      · cases hbb
    · dsimp only
      rw [segMembers_append, segMembers_cons, Nat.zero_add, if_pos rfl, hcov,
        segMembers_nil]
      have hsm : stateMembers c s.blocks St.avail
          = segMembers c 0 s.blocks St.avail ++ [] := by
        rw [List.append_nil]
        rfl
      refine List.Perm.trans (List.Perm.cons _ hav) ?_
      rw [hsm]
      exact List.perm_middle.symm
    · dsimp only
      rw [segMembers_append, segMembers_cons, Nat.zero_add,
        if_neg (by intro hco; cases hco), segMembers_nil, List.append_nil]
      exact hus
    · dsimp only
      rw [stateCount_append, stateCount_cons, if_pos rfl, stateCount_nil]
      try dsimp only
      omega
    · dsimp only
      rw [stateCount_append, stateCount_cons, if_neg (by intro hco; cases hco),
        stateCount_nil]
      try dsimp only
      omega
    · dsimp only
      rw [stateBytes_append, stateBytes_cons, if_pos rfl, stateBytes_nil]
      try dsimp only
      omega
    · dsimp only
      rw [stateBytes_append, stateBytes_cons, if_neg (by intro hco; cases hco),
        stateBytes_nil]
      try dsimp only
      omega
  unfold el_append_pages_to_heap
  dsimp only
  unfold el_add_block_front
  rw [hnb]
  dsimp only
  cases hbelow : el_block_below c
      { blocks := s.blocks
          ++ [(⟨np * c.pageBytes - c.OV, np * c.pageBytes - c.OV, St.avail⟩ : Blk)]
        heapBytes := s.heapBytes + np * c.pageBytes
        avail := { members := s.heapBytes :: s.avail.members
                   length := s.avail.length + 1
                   bytes := s.avail.bytes + ((np * c.pageBytes - c.OV) + c.OV) }
        used := s.used } s.heapBytes with
  | none => exact hs2
  | some la =>
      dsimp only
      cases hbla : blkAt c
          (s.blocks
            ++ [(⟨np * c.pageBytes - c.OV, np * c.pageBytes - c.OV, St.avail⟩ : Blk)])
          la with
      | none => exact hs2
      | some pb =>
          dsimp only
          by_cases hpav : pb.st = St.avail
          · rw [if_pos hpav]
            unfold el_merge_block_with_above
            exact WF_mergeFuel c hOV _ _ _ hs2
          · rw [if_neg hpav]
            exact hs2

theorem Reachable_WF (c : Cfg) (hOK : CfgOK c) (s : Heap) (hr : Reachable c s) :
    WF c s := by
  obtain ⟨hh, hf, hp⟩ := hOK
  have hOV : 0 < c.OV := by
    unfold Cfg.OV
    omega
  induction hr with
  | init ib s0 h => exact el_init_WF c ib s0 h
  | mallocStep s0 n hr ih => exact WF_malloc c hOV s0 n ih
  | freeStep s0 p b hr hb hst ih => exact WF_free c hOV s0 p b hb hst ih
  | growStep s0 np hr hnp ih => exact WF_append c hh hp s0 np hnp ih

theorem offBlocks_map_snd (c : Cfg) (base : Nat) (bs : List Blk) :
    (offBlocks c base bs).map Prod.snd = bs := by
  induction bs generalizing base with
  | nil => rfl
  | cons b bs ih =>
      rw [show offBlocks c base (b :: bs)
        = (base, b) :: offBlocks c (base + (b.size + c.OV)) bs from rfl]
      rw [List.map_cons, ih]

theorem findBlk_of_mem_offBlocks (c : Cfg) (hOV : 0 < c.OV) (base : Nat)
    (bs : List Blk) :
    ∀ p ∈ offBlocks c base bs, ∃ i, findBlk c base bs p.1 = some (i, p.2) := by
  induction bs generalizing base with
  | nil => simp [offBlocks]
  | cons b bs ih =>
      intro p hp
      rw [show offBlocks c base (b :: bs)
        = (base, b) :: offBlocks c (base + (b.size + c.OV)) bs from rfl] at hp
      rw [List.mem_cons] at hp
      rcases hp with hp | hp
      · subst hp
        exact ⟨0, by simp [findBlk]⟩
      · have hbound := offBlocks_fst_bounds c (base + (b.size + c.OV)) bs p hp
        obtain ⟨i, hfi⟩ := ih (base + (b.size + c.OV)) p hp
        refine ⟨i + 1, ?_⟩
        simp only [findBlk]
        rw [if_neg (by omega), hfi]
        rfl

theorem blkAt_of_mem_offBlocks (c : Cfg) (hOV : 0 < c.OV) (bs : List Blk) :
    ∀ p ∈ offBlocks c 0 bs, blkAt c bs p.1 = some p.2 := by
  intro p hp
  obtain ⟨i, hfi⟩ := findBlk_of_mem_offBlocks c hOV 0 bs p hp
  unfold blkAt
  rw [hfi]
  rfl

theorem span_sum_over (c : Cfg) (bs : List Blk) (l : List (Nat × Blk))
    (h : ∀ p ∈ l, blkAt c bs p.1 = some p.2) :
    ((l.map Prod.fst).map (memberSpan c bs)).sum
      = ((l.map Prod.snd).map (fun b => b.size + c.OV)).sum := by
  induction l with
  | nil => rfl
  | cons p l ih =>
      simp only [List.map_cons, List.sum_cons]
      rw [ih (fun q hq => h q (List.mem_cons_of_mem p hq))]
      have hmp : memberSpan c bs p.1 = p.2.size + c.OV := by
        unfold memberSpan
        rw [h p (List.mem_cons_self p l)]
      rw [hmp]

theorem filter_snd_map (l : List (Nat × Blk)) (st : St) :
    ((l.filter (fun p => p.2.st == st)).map Prod.snd)
      = (l.map Prod.snd).filter (fun b => b.st == st) := by
  induction l with
  | nil => rfl
  | cons p l ih =>
      rw [List.map_cons, List.filter_cons, List.filter_cons]
      by_cases h : (p.2.st == st) = true
      · rw [if_pos h, if_pos h, List.map_cons, ih]
      · rw [if_neg h, if_neg h, ih]

theorem segMembers_length (c : Cfg) (base : Nat) (bs : List Blk) (st : St) :
    (segMembers c base bs st).length = stateCount bs st := by
  induction bs generalizing base with
  | nil => rfl
  | cons b bs ih =>
      rw [segMembers_cons, stateCount_cons]
      by_cases h : b.st = st
      · rw [if_pos h, if_pos h, List.length_cons, ih]
        omega
      · rw [if_neg h, if_neg h, ih]
        omega

theorem stateMembers_span_sum (c : Cfg) (hOV : 0 < c.OV) (bs : List Blk) (st : St) :
    ((stateMembers c bs st).map (memberSpan c bs)).sum = stateBytes c bs st := by
  unfold stateMembers segMembers
  rw [span_sum_over c bs _ (fun p hp =>
    blkAt_of_mem_offBlocks c hOV bs p (List.mem_of_mem_filter hp))]
  rw [filter_snd_map, offBlocks_map_snd]
  rfl

/-- Claim C4: in every state reached by returned public calls
(`el_init`, `el_malloc`, `el_free`, `el_append_pages_to_heap`), both
lists' `length` field equals the number of member blocks and both
lists' `bytes` field equals the sum of `size + EL_BLOCK_OVERHEAD` over
the members. -/
theorem claim_C4_list_aggregates (c : Cfg) (s : Heap) (hOK : CfgOK c)
    (hr : Reachable c s) :
    s.avail.length = s.avail.members.length ∧
    s.used.length = s.used.members.length ∧
    s.avail.bytes = (s.avail.members.map (memberSpan c s.blocks)).sum ∧
    s.used.bytes = (s.used.members.map (memberSpan c s.blocks)).sum := by
  have hOV : 0 < c.OV := by
    obtain ⟨hh, hf, hp⟩ := hOK
    unfold Cfg.OV
    omega
  obtain ⟨hcov, hmir, hav, hus, hal, hul, hab, hub⟩ := Reachable_WF c hOK s hr
  refine ⟨?_, ?_, ?_, ?_⟩
  · rw [hal, hav.length_eq]
    exact (segMembers_length c 0 s.blocks St.avail).symm
  · rw [hul, hus.length_eq]
    exact (segMembers_length c 0 s.blocks St.used).symm
  · rw [hab, (List.Perm.map (memberSpan c s.blocks) hav).sum_eq,
      stateMembers_span_sum c hOV]
  · rw [hub, (List.Perm.map (memberSpan c s.blocks) hus).sum_eq,
      stateMembers_span_sum c hOV]

theorem claim_C4_witness :
    CfgOK bugCfg ∧ Reachable bugCfg bugS0 ∧
      (bugS0.avail.length = bugS0.avail.members.length ∧
       bugS0.used.length = bugS0.used.members.length ∧
       bugS0.avail.bytes = (bugS0.avail.members.map (memberSpan bugCfg bugS0.blocks)).sum ∧
       bugS0.used.bytes = (bugS0.used.members.map (memberSpan bugCfg bugS0.blocks)).sum) :=
  ⟨by decide, Reachable.init 4096 bugS0 (by decide),
   claim_C4_list_aggregates bugCfg bugS0 (by decide)
     (Reachable.init 4096 bugS0 (by decide))⟩

theorem find_first_split {α : Type} (p : α → Bool) (l : List α) (x : α)
    (h : l.find? p = some x) :
    ∃ pre post, l = pre ++ x :: post ∧ p x = true ∧ ∀ y ∈ pre, p y = false := by
  induction l with
  | nil => simp [List.find?] at h
  | cons a l ih =>
      cases hpa : p a with
      | true =>
          rw [List.find?_cons_of_pos _ hpa] at h
          simp only [Option.some.injEq] at h
          subst h
          exact ⟨[], l, rfl, hpa, by simp⟩
      | false =>
          rw [List.find?_cons_of_neg _ (by simp [hpa])] at h
          obtain ⟨pre, post, hl, hx, hpre⟩ := ih h
          refine ⟨a :: pre, post, by rw [hl]; rfl, hx, ?_⟩
          intro y hy
          rw [List.mem_cons] at hy
          rcases hy with hy | hy
          · subst hy; exact hpa
          · exact hpre y hy

/-- Claim C3: splitting a block of size `S` at request `n` with
`S ≥ n + EL_BLOCK_OVERHEAD` yields a lower block of size exactly `n` and
an upper available block, their sizes summing to `S - EL_BLOCK_OVERHEAD`,
each with a footer mirroring its header size, the upper block's offset
returned and neither list touched; with `S < n + EL_BLOCK_OVERHEAD` the
state is unchanged and no split is signalled. -/
theorem claim_C3_split_correctness (c : Cfg) (hOV : 0 < c.OV) (s : Heap)
    (o n i : Nat) (b : Blk)
    (hblk : findBlk c 0 s.blocks o = some (i, b)) :
    (n + c.OV ≤ b.size →
      blkAt c (el_split_block c s o n).1.blocks o = some ⟨n, n, b.st⟩ ∧
      blkAt c (el_split_block c s o n).1.blocks (o + (n + c.OV))
        = some ⟨b.size - (n + c.OV), b.size - (n + c.OV), St.avail⟩ ∧
      n + (b.size - (n + c.OV)) = b.size - c.OV ∧
      (el_split_block c s o n).2 = some (o + (n + c.OV)) ∧
      (el_split_block c s o n).1.avail = s.avail ∧
      (el_split_block c s o n).1.used = s.used ∧
      (el_split_block c s o n).1.heapBytes = s.heapBytes) ∧
    (b.size < n + c.OV → el_split_block c s o n = (s, none)) := by
  obtain ⟨hi, hib, hoff⟩ := findBlk_spec c s.blocks 0 o i b hblk
  rw [Nat.zero_add] at hoff
  constructor
  · intro hsp
    rw [el_split_block_eq_some c s o n i b hblk hsp]
    dsimp only
    refine ⟨?_, ?_, by omega, rfl, rfl, rfl, rfl⟩
    · rw [hoff]
      exact blkAt_at_append c hOV _ _ _
    · have hsplit2 : s.blocks.take i
          ++ (⟨n, n, b.st⟩ : Blk)
          :: (⟨b.size - (n + c.OV), b.size - (n + c.OV), St.avail⟩ : Blk)
          :: s.blocks.drop (i + 1)
          = (s.blocks.take i ++ [(⟨n, n, b.st⟩ : Blk)])
            ++ (⟨b.size - (n + c.OV), b.size - (n + c.OV), St.avail⟩ : Blk)
            :: s.blocks.drop (i + 1) := by simp
      rw [hsplit2]
      have hspan : spanSum c (s.blocks.take i ++ [(⟨n, n, b.st⟩ : Blk)])
          = o + (n + c.OV) := by
        rw [spanSum_append, ← hoff]
        simp [spanSum]
      rw [← hspan]
      exact blkAt_at_append c hOV _ _ _
  · intro hlt
    exact el_split_block_eq_none c s o n i b hblk hlt

theorem claim_C3_witness :
    0 < bugCfg.OV ∧
    findBlk bugCfg 0 bugS0.blocks 0 = some (0, ⟨4056, 4056, St.avail⟩) ∧
    ((100 + bugCfg.OV ≤ 4056 →
      blkAt bugCfg (el_split_block bugCfg bugS0 0 100).1.blocks 0
        = some ⟨100, 100, St.avail⟩ ∧
      blkAt bugCfg (el_split_block bugCfg bugS0 0 100).1.blocks (0 + (100 + bugCfg.OV))
        = some ⟨4056 - (100 + bugCfg.OV), 4056 - (100 + bugCfg.OV), St.avail⟩ ∧
      100 + (4056 - (100 + bugCfg.OV)) = 4056 - bugCfg.OV ∧
      (el_split_block bugCfg bugS0 0 100).2 = some (0 + (100 + bugCfg.OV)) ∧
      (el_split_block bugCfg bugS0 0 100).1.avail = bugS0.avail ∧
      (el_split_block bugCfg bugS0 0 100).1.used = bugS0.used ∧
      (el_split_block bugCfg bugS0 0 100).1.heapBytes = bugS0.heapBytes) ∧
    (4056 < 100 + bugCfg.OV → el_split_block bugCfg bugS0 0 100 = (bugS0, none))) :=
  ⟨by decide, by decide,
   claim_C3_split_correctness bugCfg (by decide) bugS0 0 100 0
     ⟨4056, 4056, St.avail⟩ (by decide)⟩

/-- Claim C6: `el_find_first_avail` walks the free list from the `beg`
sentinel and returns the first member whose size is at least the request
(every earlier member is too small — insertion order, not best fit), and
returns none exactly when no member qualifies. -/
theorem claim_C6_first_fit (c : Cfg) (s : Heap) (n : Nat)
    (hmem : ∀ o ∈ s.avail.members,
      ∃ b, blkAt c s.blocks o = some b ∧ b.st = St.avail) :
    (∀ o, el_find_first_avail c s n = some o →
       ∃ pre post b, s.avail.members = pre ++ o :: post ∧
         blkAt c s.blocks o = some b ∧ n ≤ b.size ∧
         (∀ o' ∈ pre, ∀ b', blkAt c s.blocks o' = some b' → b'.size < n)) ∧
    (el_find_first_avail c s n = none →
       ∀ o ∈ s.avail.members, ∀ b, blkAt c s.blocks o = some b → b.size < n) := by
  constructor
  · intro o hfind
    unfold el_find_first_avail at hfind
    obtain ⟨pre, post, hl, hx, hpre⟩ := find_first_split _ _ _ hfind
    cases hbo : blkAt c s.blocks o with
    | none => rw [hbo] at hx; simp at hx
    | some b =>
        rw [hbo] at hx
        simp only [Bool.and_eq_true, beq_iff_eq, decide_eq_true_eq] at hx
        refine ⟨pre, post, b, hl, rfl, hx.2, ?_⟩
        intro o' ho' b' hb'
        have hpo' := hpre o' ho'
        rw [hb'] at hpo'
        have hmo' : o' ∈ s.avail.members := by
          rw [hl, List.mem_append]
          exact Or.inl ho'
        obtain ⟨b2, hb2, hb2st⟩ := hmem o' hmo'
        rw [hb'] at hb2
        have hbb : b' = b2 := by
          exact (Option.some.injEq _ _).mp hb2
        subst hbb
        simp only [Bool.and_eq_false_iff, beq_eq_false_iff_ne, ne_eq,
          decide_eq_false_iff_not, Nat.not_le] at hpo'
        rcases hpo' with hco | hlt
        · exact absurd hb2st hco
        · exact hlt
  · intro hfind o ho b hb
    unfold el_find_first_avail at hfind
    have := List.find?_eq_none.mp hfind o ho
    rw [hb] at this
    simp only [Bool.and_eq_true, beq_iff_eq, decide_eq_true_eq, not_and] at this
    obtain ⟨b2, hb2, hb2st⟩ := hmem o ho
    rw [hb] at hb2
    have hbb : b = b2 := (Option.some.injEq _ _).mp hb2
    subst hbb
    have := this hb2st
    omega

theorem claim_C6_witness :
    (∀ o ∈ bugPre.avail.members,
      ∃ b, blkAt bugCfg bugPre.blocks o = some b ∧ b.st = St.avail) ∧
    ((∀ o, el_find_first_avail bugCfg bugPre 500 = some o →
       ∃ pre post b, bugPre.avail.members = pre ++ o :: post ∧
         blkAt bugCfg bugPre.blocks o = some b ∧ 500 ≤ b.size ∧
         (∀ o' ∈ pre, ∀ b', blkAt bugCfg bugPre.blocks o' = some b' → b'.size < 500)) ∧
    (el_find_first_avail bugCfg bugPre 500 = none →
       ∀ o ∈ bugPre.avail.members, ∀ b,
         blkAt bugCfg bugPre.blocks o = some b → b.size < 500)) :=
  ⟨by decide, claim_C6_first_fit bugCfg bugPre 500 (by decide)⟩

/-- Claim C7: when no free-list member is large enough for the request,
`el_malloc` returns the "no memory" signal (`none`) and the entire
allocator state — blocks, arena bounds and both lists — is exactly the
pre-call state; the arena is not grown. -/
theorem claim_C7_exhaustion_unchanged (c : Cfg) (s : Heap) (n : Nat)
    (h : ∀ o ∈ s.avail.members, ∀ b, blkAt c s.blocks o = some b → b.size < n) :
    el_malloc c s n = (s, none) := by
  have hfind : el_find_first_avail c s n = none := by
    unfold el_find_first_avail
    rw [List.find?_eq_none]
    intro o ho
    cases hb : blkAt c s.blocks o with
    | none => simp
    | some b =>
        have := h o ho b hb
        simp only [Bool.and_eq_true, beq_iff_eq, decide_eq_true_eq, not_and]
        intro hst
        omega
  unfold el_malloc
  rw [hfind]

theorem claim_C7_witness :
    (∀ o ∈ bugS0.avail.members, ∀ b,
      blkAt bugCfg bugS0.blocks o = some b → b.size < 5000) ∧
    el_malloc bugCfg bugS0 5000 = (bugS0, none) :=
  ⟨by decide, claim_C7_exhaustion_unchanged bugCfg bugS0 5000 (by decide)⟩

/-- Claim C8: for every block of the arena walk, `el_block_above`
returns the address `block + header.size + EL_BLOCK_OVERHEAD` (none when
that address is at or past `heap_end`), and `el_block_below` reads the
footer immediately before the block's header and steps back by that
footer's `size + EL_BLOCK_OVERHEAD` (none when the footer address is at
or before `heap_start`, i.e. for the first block). -/
theorem claim_C8_neighbors (c : Cfg) (s : Heap) (hHead : 0 < c.headSz)
    (hcov : spanSum c s.blocks = s.heapBytes)
    (hmir : ∀ b ∈ s.blocks, b.foot = b.size)
    (i : Nat) (hi : i < s.blocks.length) :
    el_block_above c s (offAt c s.blocks i)
      = (if i + 1 < s.blocks.length then some (offAt c s.blocks (i + 1)) else none) ∧
    (i + 1 < s.blocks.length →
       offAt c s.blocks (i + 1) = offAt c s.blocks i + (s.blocks[i].size + c.OV)) ∧
    el_block_below c s (offAt c s.blocks i)
      = (if i = 0 then none else some (offAt c s.blocks (i - 1))) ∧
    (0 < i →
       offAt c s.blocks (i - 1)
         = offAt c s.blocks i - (s.blocks[i - 1].foot + c.OV)) := by
  have hOV : 0 < c.OV := by
    unfold Cfg.OV
    omega
  refine ⟨el_block_above_eq c hOV s hcov i hi, ?_,
    el_block_below_eq c hHead s hmir i hi, ?_⟩
  · intro hlt
    exact offAt_succ c s.blocks i hi
  · intro hpos
    cases i with
    | zero => cases hpos
    | succ j =>
        have hj : j < s.blocks.length := by omega
        have hmj : s.blocks[j].foot = s.blocks[j].size :=
          hmir s.blocks[j] (List.getElem_mem hj)
        have := offAt_succ c s.blocks j hj
        simp only [Nat.add_sub_cancel]
        rw [hmj]
        omega

theorem claim_C8_witness :
    0 < bugCfg.headSz ∧ spanSum bugCfg bugPre.blocks = bugPre.heapBytes ∧
    (∀ b ∈ bugPre.blocks, b.foot = b.size) ∧ 0 < bugPre.blocks.length ∧
    (el_block_above bugCfg bugPre (offAt bugCfg bugPre.blocks 0)
      = (if 0 + 1 < bugPre.blocks.length
         then some (offAt bugCfg bugPre.blocks (0 + 1)) else none) ∧
    (0 + 1 < bugPre.blocks.length →
       offAt bugCfg bugPre.blocks (0 + 1)
         = offAt bugCfg bugPre.blocks 0 + (bugPre.blocks[0].size + bugCfg.OV)) ∧
    el_block_below bugCfg bugPre (offAt bugCfg bugPre.blocks 0)
      = (if 0 = 0 then none else some (offAt bugCfg bugPre.blocks (0 - 1))) ∧
    (0 < 0 →
       offAt bugCfg bugPre.blocks (0 - 1)
         = offAt bugCfg bugPre.blocks 0 - (bugPre.blocks[0 - 1].foot + bugCfg.OV))) :=
  ⟨by decide, by decide, by decide, by decide,
   claim_C8_neighbors bugCfg bugPre (by decide) (by decide) (by decide) 0 (by decide)⟩

/-- Claim C10: every successful `el_malloc(n)` hands out the first-fit
block, marked used, with `n ≤ size < n + EL_BLOCK_OVERHEAD`: exactly `n`
when the split succeeded, the found block's original size when the split
was refused — so per-allocation internal fragmentation is at most
`EL_BLOCK_OVERHEAD - 1` bytes. -/
theorem claim_C10_bounded_fragmentation (c : Cfg) (hOV : 0 < c.OV) (s : Heap)
    (n p : Nat) (hma : (el_malloc c s n).2 = some p) :
    ∃ o i b b', el_find_first_avail c s n = some o ∧
      findBlk c 0 s.blocks o = some (i, b) ∧
      p = o + c.headSz ∧
      blkAt c (el_malloc c s n).1.blocks o = some b' ∧
      b'.st = St.used ∧ n ≤ b'.size ∧ b'.size < n + c.OV ∧
      (n + c.OV ≤ b.size → b'.size = n) ∧
      (b.size < n + c.OV → b'.size = b.size) := by
  cases hfind : el_find_first_avail c s n with
  | none =>
      unfold el_malloc at hma
      rw [hfind] at hma
      cases hma
  | some o =>
      obtain ⟨hmem, i, b, hblk, hst, hsz⟩ := el_find_first_avail_spec c s n o hfind
      obtain ⟨hi, hib, hoff⟩ := findBlk_spec c s.blocks 0 o i b hblk
      rw [Nat.zero_add] at hoff
      by_cases hsp : n + c.OV ≤ b.size
      · have heq := el_malloc_split_eq c hOV s n o i b hfind hblk hsp
        have hp : p = o + c.headSz := by
          rw [heq] at hma
          exact ((Option.some.injEq _ _).mp hma).symm
        refine ⟨o, i, b, ⟨n, n, St.used⟩, rfl, hblk, hp, ?_, rfl, ?_, ?_, ?_, ?_⟩
        · rw [heq]
          dsimp only
          rw [hoff]
          exact blkAt_at_append c hOV _ _ _
        · exact Nat.le_refl _
        · try dsimp only
          omega
        · intro hco
          rfl
        · intro hco
          omega
      · have heq := el_malloc_nosplit_eq c hOV s n o i b hfind hblk (by omega)
        have hp : p = o + c.headSz := by
          rw [heq] at hma
          exact ((Option.some.injEq _ _).mp hma).symm
        refine ⟨o, i, b, ⟨b.size, b.foot, St.used⟩, rfl, hblk, hp, ?_, rfl, hsz, by
          dsimp only
          omega, ?_, ?_⟩
        · rw [heq]
          dsimp only
          rw [hoff]
          exact blkAt_at_append c hOV _ _ _
        · intro hco
          omega
        · intro hco
          rfl

theorem claim_C10_witness :
    0 < bugCfg.OV ∧ (el_malloc bugCfg bugS0 1000).2 = some 32 ∧
    (∃ o i b b', el_find_first_avail bugCfg bugS0 1000 = some o ∧
      findBlk bugCfg 0 bugS0.blocks o = some (i, b) ∧
      32 = o + bugCfg.headSz ∧
      blkAt bugCfg (el_malloc bugCfg bugS0 1000).1.blocks o = some b' ∧
      b'.st = St.used ∧ 1000 ≤ b'.size ∧ b'.size < 1000 + bugCfg.OV ∧
      (1000 + bugCfg.OV ≤ b.size → b'.size = 1000) ∧
      (b.size < 1000 + bugCfg.OV → b'.size = b.size)) :=
  ⟨by decide, by decide,
   claim_C10_bounded_fragmentation bugCfg (by decide) bugS0 1000 32 (by decide)⟩

theorem noAdjFree_pair (bs : List Blk) (h : noAdjFreeRun bs = true) (i : Nat)
    (hi : i + 1 < bs.length) (ha : bs[i].st = St.avail) :
    ¬ bs[i + 1].st = St.avail := by
  induction bs generalizing i with
  | nil => simp at hi
  | cons a bs ih =>
      cases bs with
      | nil => simp at hi
      | cons b2 rest =>
          rw [show noAdjFreeRun (a :: b2 :: rest)
            = ((!(a.st == St.avail && b2.st == St.avail))
              && noAdjFreeRun (b2 :: rest)) from rfl] at h
          rw [Bool.and_eq_true] at h
          cases i with
          | zero =>
              intro hb2
              simp only [List.getElem_cons_zero] at ha
              simp only [List.getElem_cons_succ, List.getElem_cons_zero] at hb2
              rw [ha, hb2] at h
              simp at h
          | succ j =>
              have hj : j + 1 < (b2 :: rest).length := by
                simpa using hi
              have haj : (b2 :: rest)[j].st = St.avail := by
                simpa using ha
              have := ih h.2 j hj haj
              simpa using this

theorem take_at_append_idx {α : Type} (u v : List α) (i : Nat) (hi : u.length = i) :
    (u ++ v).take i = u := by
  subst hi
  exact take_at_append u v

theorem drop_one_at_append {α : Type} (u w : List α) (a : α) :
    (u ++ a :: w).drop (u.length + 1) = w := by
  induction u with
  | nil => rfl
  | cons x u ih => simpa using ih

theorem drop_one_at_append_idx {α : Type} (u w : List α) (a : α) (i : Nat)
    (hi : u.length = i) : (u ++ a :: w).drop (i + 1) = w := by
  subst hi
  exact drop_one_at_append u w a

theorem drop_two_at_append_idx (u w : List Blk) (a b : Blk) (i : Nat)
    (hi : u.length = i) : (u ++ a :: b :: w).drop (i + 2) = w := by
  subst hi
  exact drop_two_at_append u w a b

theorem below_part_stuck (c : Cfg) (hHead : 0 < c.headSz) (f : Nat) (T : Heap)
    (i : Nat) (hi : i < T.blocks.length)
    (hmir : ∀ b ∈ T.blocks, b.foot = b.size)
    (hdn : 0 < i → ∀ bb, blkAt c T.blocks (offAt c T.blocks (i - 1)) = some bb →
      ¬ bb.st = St.avail) :
    (match el_block_below c T (offAt c T.blocks i) with
     | none => T
     | some la =>
         match blkAt c T.blocks la with
         | none => T
         | some lowerer =>
             if lowerer.st = St.avail then mergeFuel c f T (some la) else T) = T := by
  have hOV : 0 < c.OV := by
    unfold Cfg.OV
    omega
  have hbelow := el_block_below_eq c hHead T hmir i hi
  by_cases hz : i = 0
  · subst hz
    rw [if_pos rfl] at hbelow
    rw [hbelow]
  · rw [if_neg hz] at hbelow
    rw [hbelow]
    dsimp only
    have hj : i - 1 < T.blocks.length := by omega
    rw [blkAt_offAt c hOV T.blocks (i - 1) hj]
    dsimp only
    rw [if_neg (hdn (by omega) T.blocks[i - 1] (blkAt_offAt c hOV T.blocks (i - 1) hj))]

theorem mergeFuel_stuck (c : Cfg) (hHead : 0 < c.headSz) (f : Nat) (T : Heap)
    (i : Nat) (hi : i < T.blocks.length)
    (hcov : spanSum c T.blocks = T.heapBytes)
    (hmir : ∀ b ∈ T.blocks, b.foot = b.size)
    (hav : T.blocks[i].st = St.avail)
    (hup : i + 1 < T.blocks.length →
      ∀ bb, blkAt c T.blocks (offAt c T.blocks (i + 1)) = some bb →
        ¬ bb.st = St.avail)
    (hdn : 0 < i → ∀ bb, blkAt c T.blocks (offAt c T.blocks (i - 1)) = some bb →
      ¬ bb.st = St.avail) :
    mergeFuel c (f + 1) T (some (offAt c T.blocks i)) = T := by
  have hOV : 0 < c.OV := by
    unfold Cfg.OV
    omega
  have hb : blkAt c T.blocks (offAt c T.blocks i) = some T.blocks[i] :=
    blkAt_offAt c hOV T.blocks i hi
  have habove := el_block_above_eq c hOV T hcov i hi
  by_cases hlt : i + 1 < T.blocks.length
  · rw [if_pos hlt] at habove
    have hnext : blkAt c T.blocks (offAt c T.blocks (i + 1)) = some T.blocks[i + 1] :=
      blkAt_offAt c hOV T.blocks (i + 1) hlt
    rw [mergeFuel_above_not_avail c f T _ _ T.blocks[i] T.blocks[i + 1]
      hb hav habove hnext (hup hlt T.blocks[i + 1] hnext)]
    exact below_part_stuck c hHead f T i hi hmir hdn
  · rw [if_neg hlt] at habove
    exact mergeFuel_above_none c f T _ T.blocks[i] hb hav habove

theorem mergeFuel_merge_stuck (c : Cfg) (f : Nat) (s t : Heap) (o ha : Nat)
    (lower higher : Blk)
    (h1 : blkAt c s.blocks o = some lower) (h2 : lower.st = St.avail)
    (h3 : el_block_above c s o = some ha)
    (h4 : blkAt c s.blocks ha = some higher) (h5 : higher.st = St.avail)
    (h6 : mergeStep c s o ha = some t)
    (hstuck : mergeFuel c f t (some o) = t)
    (hbelow : (match el_block_below c t o with
               | none => t
               | some la =>
                   match blkAt c t.blocks la with
                   | none => t
                   | some lowerer =>
                       if lowerer.st = St.avail then mergeFuel c f t (some la)
                       else t) = t) :
    mergeFuel c (f + 1) s (some o) = t := by
  rw [mergeFuel_merge c f s t o ha lower higher h1 h2 h3 h4 h5 h6, hstuck]
  exact hbelow

/-- Claim C5: from any well-formed coalesced state, releasing the block
returned by a successful `el_malloc(n)` restores the free list to its
pre-allocate state: the heap walk is exactly the original one, and the
free list's members (up to order), count and total bytes are the
originals — the split-off remainder, if any, is re-merged with the
released block. -/
theorem claim_C5_roundtrip (c : Cfg) (hOK : CfgOK c) (s s1 : Heap) (n p : Nat)
    (hwf : WF c s) (hnaf : NoAdjFree s)
    (hm : el_malloc c s n = (s1, some p)) :
    (el_free c s1 p).blocks = s.blocks ∧
    List.Perm (el_free c s1 p).avail.members s.avail.members ∧
    (el_free c s1 p).avail.length = s.avail.length ∧
    (el_free c s1 p).avail.bytes = s.avail.bytes := by
  obtain ⟨hHead, hFoot, hPage⟩ := hOK
  have hOV : 0 < c.OV := by
    unfold Cfg.OV
    omega
  cases hfind : el_find_first_avail c s n with
  | none =>
      unfold el_malloc at hm
      rw [hfind] at hm
      rw [Prod.mk.injEq] at hm
      cases hm.2
  | some o =>
      obtain ⟨hmemo, i, b, hblk, hst, hsz⟩ := el_find_first_avail_spec c s n o hfind
      obtain ⟨hi, hib, hoff⟩ := findBlk_spec c s.blocks 0 o i b hblk
      rw [Nat.zero_add] at hoff
      have hlen : (s.blocks.take i).length = i := length_take_of_le _ _ (Nat.le_of_lt hi)
      have hgetb : s.blocks[i] = b := by
        have := List.getElem?_eq_getElem hi
        rw [hib] at this
        exact (Option.some.injEq _ _).mp this.symm
      have hdecomp : s.blocks = s.blocks.take i ++ b :: s.blocks.drop (i + 1) := by
        conv_lhs => rw [← restore_at_append s.blocks i hi]
        rw [hgetb]
      obtain ⟨hcov, hmir, hav, hus, hal, hul, hab, hub⟩ := hwf
      have hcov2 := hcov
      have hab2 := hab
      have hal2 := hal
      rw [hdecomp] at hcov2 hab2 hal2
      rw [spanSum_append, spanSum_cons] at hcov2
      rw [stateBytes_append, stateBytes_cons, if_pos hst] at hab2
      rw [stateCount_append, stateCount_cons, if_pos hst] at hal2
      have hbge : b.size + c.OV ≤ s.avail.bytes := by omega
      have hge1 : 1 ≤ s.avail.length := by omega
      have hoff2 : o = offAt c s.blocks i := hoff
      have hup : i + 1 < s.blocks.length →
          ∀ bb, blkAt c s.blocks (offAt c s.blocks (i + 1)) = some bb →
            ¬ bb.st = St.avail := by
        intro hlt bb hbb
        rw [blkAt_offAt c hOV s.blocks (i + 1) hlt] at hbb
        have hbbe : bb = s.blocks[i + 1] := ((Option.some.injEq _ _).mp hbb).symm
        subst hbbe
        exact noAdjFree_pair s.blocks hnaf i hlt (by rw [hgetb]; exact hst)
      have hdn : 0 < i →
          ∀ bb, blkAt c s.blocks (offAt c s.blocks (i - 1)) = some bb →
            ¬ bb.st = St.avail := by
        intro hpos bb hbb
        cases i with
        | zero => exact absurd hpos (by omega)
        | succ j =>
            simp only [Nat.add_sub_cancel] at hbb
            have hj : j < s.blocks.length := by omega
            rw [blkAt_offAt c hOV s.blocks j hj] at hbb
            have hbbe : bb = s.blocks[j] := ((Option.some.injEq _ _).mp hbb).symm
            subst hbbe
            intro hbav
            have hpair := noAdjFree_pair s.blocks hnaf j (by omega) hbav
            rw [hgetb] at hpair
            exact hpair hst
      by_cases hsp : n + c.OV ≤ b.size
      · -- split case
        have heqm := el_malloc_split_eq c hOV s n o i b hfind hblk hsp
        rw [heqm, Prod.mk.injEq] at hm
        obtain ⟨hs1, hp⟩ := hm
        have hpv : o + c.headSz = p := (Option.some.injEq _ _).mp hp
        subst hpv
        subst hs1
        have hpsub : o + c.headSz - c.headSz = o := by omega
        have hblk1 : findBlk c 0
            (s.blocks.take i
              ++ (⟨n, n, St.used⟩ : Blk)
              :: (⟨b.size - (n + c.OV), b.size - (n + c.OV), St.avail⟩ : Blk)
              :: s.blocks.drop (i + 1)) (o + c.headSz - c.headSz)
            = some (i, ⟨n, n, St.used⟩) := by
          rw [hpsub]
          have := findBlk_at_append_zero c hOV (s.blocks.take i)
            ((⟨b.size - (n + c.OV), b.size - (n + c.OV), St.avail⟩ : Blk)
              :: s.blocks.drop (i + 1)) (⟨n, n, St.used⟩ : Blk)
          rw [hlen, ← hoff] at this
          exact this
        rw [el_free_eq c hOV _ (o + c.headSz) i ⟨n, n, St.used⟩ hblk1]
        dsimp only
        rw [hpsub]
        rw [take_at_append_idx _ _ i (by rw [hlen])]
        rw [drop_one_at_append_idx _ _ _ i (by rw [hlen])]
        unfold el_merge_block_with_above
        rw [show (2 * (s.blocks.take i
            ++ (⟨n, n, St.avail⟩ : Blk)
            :: (⟨b.size - (n + c.OV), b.size - (n + c.OV), St.avail⟩ : Blk)
            :: s.blocks.drop (i + 1)).length + 2)
          = (2 * (s.blocks.take i
            ++ (⟨n, n, St.avail⟩ : Blk)
            :: (⟨b.size - (n + c.OV), b.size - (n + c.OV), St.avail⟩ : Blk)
            :: s.blocks.drop (i + 1)).length + 1) + 1 from rfl]
        -- merge fires once: the freed block and the split remainder
        have hfo3 : findBlk c 0
            (s.blocks.take i
              ++ (⟨n, n, St.avail⟩ : Blk)
              :: (⟨b.size - (n + c.OV), b.size - (n + c.OV), St.avail⟩ : Blk)
              :: s.blocks.drop (i + 1)) o
            = some (i, ⟨n, n, St.avail⟩) := by
          have := findBlk_at_append_zero c hOV (s.blocks.take i)
            ((⟨b.size - (n + c.OV), b.size - (n + c.OV), St.avail⟩ : Blk)
              :: s.blocks.drop (i + 1)) (⟨n, n, St.avail⟩ : Blk)
          rw [hlen, ← hoff] at this
          exact this
        have hfro3 : findBlk c 0
            (s.blocks.take i
              ++ (⟨n, n, St.avail⟩ : Blk)
              :: (⟨b.size - (n + c.OV), b.size - (n + c.OV), St.avail⟩ : Blk)
              :: s.blocks.drop (i + 1)) (o + (n + c.OV))
            = some (i + 1, ⟨b.size - (n + c.OV), b.size - (n + c.OV), St.avail⟩) := by
          have hsplit2 : s.blocks.take i
              ++ (⟨n, n, St.avail⟩ : Blk)
              :: (⟨b.size - (n + c.OV), b.size - (n + c.OV), St.avail⟩ : Blk)
              :: s.blocks.drop (i + 1)
              = (s.blocks.take i ++ [(⟨n, n, St.avail⟩ : Blk)])
                ++ (⟨b.size - (n + c.OV), b.size - (n + c.OV), St.avail⟩ : Blk)
                :: s.blocks.drop (i + 1) := by simp
          rw [hsplit2]
          have h2 := findBlk_at_append_zero c hOV
            (s.blocks.take i ++ [(⟨n, n, St.avail⟩ : Blk)])
            (s.blocks.drop (i + 1))
            (⟨b.size - (n + c.OV), b.size - (n + c.OV), St.avail⟩ : Blk)
          rw [List.length_append, hlen] at h2
          have hspan : spanSum c (s.blocks.take i ++ [(⟨n, n, St.avail⟩ : Blk)])
              = o + (n + c.OV) := by
            rw [spanSum_append, ← hoff]
            simp [spanSum]
          rw [hspan] at h2
          simpa using h2
        have hbmem : b ∈ s.blocks := by
          rw [hdecomp]
          simp
        have hfm : b.foot = b.size := hmir b hbmem
        have hav0 : s.blocks[i].st = St.avail := by
          rw [hgetb]
          exact hst
        set BLK3 : List Blk := s.blocks.take i
          ++ (⟨n, n, St.avail⟩ : Blk)
          :: (⟨b.size - (n + c.OV), b.size - (n + c.OV), St.avail⟩ : Blk)
          :: s.blocks.drop (i + 1) with hBLK3
        set S3 : Heap :=
          { blocks := BLK3
            heapBytes := s.heapBytes
            avail := { members := o :: (o + (n + c.OV)) :: s.avail.members.erase o
                       length := s.avail.length - 1 + 1 + 1
                       bytes := s.avail.bytes - (b.size + c.OV)
                                 + (b.size - (n + c.OV) + c.OV) + (n + c.OV) }
            used := { members := (o :: s.used.members).erase o
                      length := s.used.length + 1 - 1
                      bytes := s.used.bytes + (n + c.OV) - (n + c.OV) } } with hS3
        have hb1 : blkAt c BLK3 o = some ⟨n, n, St.avail⟩ := by
          unfold blkAt
          rw [hfo3]
          rfl
        have hb4 : blkAt c BLK3 (o + (n + c.OV))
            = some ⟨b.size - (n + c.OV), b.size - (n + c.OV), St.avail⟩ := by
          unfold blkAt
          rw [hfro3]
          rfl
        have hab3 : el_block_above c S3 o = some (o + (n + c.OV)) := by
          unfold el_block_above
          rw [hS3]
          dsimp only
          rw [hb1]
          dsimp only
          rw [if_neg (by omega)]
        have h6 := mergeStep_eq c hOV S3 o (o + (n + c.OV)) i
          ⟨n, n, St.avail⟩ ⟨b.size - (n + c.OV), b.size - (n + c.OV), St.avail⟩
          hfo3 hfro3
        have e1 : S3.blocks.take i = s.blocks.take i := by
          show BLK3.take i = s.blocks.take i
          rw [hBLK3]
          exact take_at_append_idx _ _ _ hlen
        have e2 : S3.blocks.drop (i + 2) = s.blocks.drop (i + 1) := by
          show BLK3.drop (i + 2) = s.blocks.drop (i + 1)
          rw [hBLK3]
          exact drop_two_at_append_idx _ _ _ _ _ hlen
        rw [e1, e2] at h6
        dsimp only at h6
        have hbv : (⟨n + (b.size - (n + c.OV)) + c.OV,
            n + (b.size - (n + c.OV)) + c.OV, St.avail⟩ : Blk) = b := by
          have h1 : n + (b.size - (n + c.OV)) + c.OV = b.size := by omega
          rw [h1]
          cases b with
          | mk bs bf bst =>
              dsimp only at hfm hst
              rw [hfm, hst]
        rw [hbv, ← hdecomp] at h6
        have em : ((S3.avail.members.erase (o + (n + c.OV))).erase o)
            = s.avail.members.erase o := by
          show (((o :: (o + (n + c.OV)) :: s.avail.members.erase o).erase
            (o + (n + c.OV))).erase o) = s.avail.members.erase o
          rw [erase_cons_of_ne (o + (n + c.OV)) o _ (by omega)]
          rw [List.erase_cons_head]
          rw [List.erase_cons_head]
        rw [em] at h6
        set Tc : Heap :=
          { blocks := s.blocks
            heapBytes := s.heapBytes
            avail := { members := o :: s.avail.members.erase o
                       length := s.avail.length - 1 + 1 + 1 - 1 - 1 + 1
                       bytes := s.avail.bytes - (b.size + c.OV)
                                 + (b.size - (n + c.OV) + c.OV) + (n + c.OV)
                                 - (b.size - (n + c.OV) + c.OV) - (n + c.OV)
                                 + (n + (b.size - (n + c.OV)) + c.OV + c.OV) }
            used := { members := (o :: s.used.members).erase o
                      length := s.used.length + 1 - 1
                      bytes := s.used.bytes + (n + c.OV) - (n + c.OV) } } with hTc
        have hstuck := mergeFuel_stuck c hHead (2 * BLK3.length) Tc i hi hcov hmir
          hav0 hup hdn
        rw [show offAt c Tc.blocks i = o from hoff.symm] at hstuck
        have hbp := below_part_stuck c hHead (2 * BLK3.length + 1) Tc i hi hmir hdn
        rw [show offAt c Tc.blocks i = o from hoff.symm] at hbp
        have hkey := mergeFuel_merge_stuck c (2 * BLK3.length + 1) S3 Tc o
          (o + (n + c.OV)) ⟨n, n, St.avail⟩
          ⟨b.size - (n + c.OV), b.size - (n + c.OV), St.avail⟩
          hb1 rfl hab3 hb4 rfl h6 hstuck hbp
        rw [hkey, hTc]
        refine ⟨rfl, ?_, ?_, ?_⟩
        · exact (List.perm_cons_erase hmemo).symm
        · dsimp only
          omega
        · dsimp only
          omega
      · -- no split: the found block is handed out whole and restored on release
        have heqm := el_malloc_nosplit_eq c hOV s n o i b hfind hblk (by omega)
        rw [heqm, Prod.mk.injEq] at hm
        obtain ⟨hs1, hp⟩ := hm
        have hpv : o + c.headSz = p := (Option.some.injEq _ _).mp hp
        subst hpv
        subst hs1
        have hpsub : o + c.headSz - c.headSz = o := by omega
        have hbmem : b ∈ s.blocks := by
          rw [hdecomp]
          simp
        have hfm : b.foot = b.size := hmir b hbmem
        have hav0 : s.blocks[i].st = St.avail := by
          rw [hgetb]
          exact hst
        have hblk1 : findBlk c 0
            (s.blocks.take i
              ++ (⟨b.size, b.foot, St.used⟩ : Blk) :: s.blocks.drop (i + 1))
            (o + c.headSz - c.headSz)
            = some (i, ⟨b.size, b.foot, St.used⟩) := by
          rw [hpsub]
          have := findBlk_at_append_zero c hOV (s.blocks.take i)
            (s.blocks.drop (i + 1)) (⟨b.size, b.foot, St.used⟩ : Blk)
          rw [hlen, ← hoff] at this
          exact this
        rw [el_free_eq c hOV _ (o + c.headSz) i ⟨b.size, b.foot, St.used⟩ hblk1]
        dsimp only
        rw [hpsub]
        rw [take_at_append_idx _ _ _ hlen]
        rw [drop_one_at_append_idx _ _ _ _ hlen]
        have hbv2 : (⟨b.size, b.foot, St.avail⟩ : Blk) = b := by
          cases b with
          | mk bs bf bst =>
              dsimp only at hst
              rw [hst]
        rw [hbv2, ← hdecomp]
        unfold el_merge_block_with_above
        rw [show (2 * s.blocks.length + 2) = (2 * s.blocks.length + 1) + 1 from rfl]
        set T1 : Heap :=
          { blocks := s.blocks
            heapBytes := s.heapBytes
            avail := { members := o :: s.avail.members.erase o
                       length := s.avail.length - 1 + 1
                       bytes := s.avail.bytes - (b.size + c.OV) + (b.size + c.OV) }
            used := { members := (o :: s.used.members).erase o
                      length := s.used.length + 1 - 1
                      bytes := s.used.bytes + (b.size + c.OV) - (b.size + c.OV) } }
          with hT1
        have hstuck := mergeFuel_stuck c hHead (2 * s.blocks.length + 1) T1 i hi
          hcov hmir hav0 hup hdn
        rw [show offAt c T1.blocks i = o from hoff.symm] at hstuck
        rw [hstuck, hT1]
        refine ⟨rfl, ?_, ?_, ?_⟩
        · exact (List.perm_cons_erase hmemo).symm
        · dsimp only
          omega
        · dsimp only
          omega

theorem claim_C5_witness :
    CfgOK bugCfg ∧ WF bugCfg bugS0 ∧ NoAdjFree bugS0 ∧
    el_malloc bugCfg bugS0 1000 = ((el_malloc bugCfg bugS0 1000).1, some 32) ∧
    ((el_free bugCfg (el_malloc bugCfg bugS0 1000).1 32).blocks = bugS0.blocks ∧
     List.Perm (el_free bugCfg (el_malloc bugCfg bugS0 1000).1 32).avail.members
       bugS0.avail.members ∧
     (el_free bugCfg (el_malloc bugCfg bugS0 1000).1 32).avail.length
       = bugS0.avail.length ∧
     (el_free bugCfg (el_malloc bugCfg bugS0 1000).1 32).avail.bytes
       = bugS0.avail.bytes) :=
  ⟨by decide, by decide, by decide, by decide,
   claim_C5_roundtrip bugCfg (by decide) bugS0 _ 1000 32 (by decide) (by decide)
     (by decide)⟩

theorem getElem_len_at_append {α : Type} (u w : List α) (a : α)
    (h : u.length < (u ++ a :: w).length) : (u ++ a :: w)[u.length] = a := by
  induction u with
  | nil => rfl
  | cons x u ih =>
      have h2 : u.length < (u ++ a :: w).length := by
        simp only [List.length_append, List.length_cons]
        omega
      simpa using ih h2

theorem getElem_len_at_append_idx {α : Type} (u w : List α) (a : α) (j : Nat)
    (hj : u.length = j) (h : j < (u ++ a :: w).length) : (u ++ a :: w)[j] = a := by
  subst hj
  exact getElem_len_at_append u w a h

theorem getElem_lt_at_append {α : Type} (u w : List α) (j : Nat) (hj : j < u.length)
    (h : j < (u ++ w).length) : (u ++ w)[j] = u[j] := by
  induction u generalizing j with
  | nil => simp at hj
  | cons x u ih =>
      cases j with
      | zero => rfl
      | succ j2 =>
          have hj2 : j2 < u.length := by simpa using hj
          have h2 : j2 < (u ++ w).length := by
            simp only [List.cons_append, List.length_cons] at h
            omega
          simp only [List.cons_append, List.getElem_cons_succ]
          exact ih j2 hj2 h2

/-- Closed form of `el_append_pages_to_heap` when the topmost block is
available: the new page region becomes one available block pushed onto
the front of the available list, and `el_merge_block_with_above` is
started from the old topmost block (found through the new block's
below-neighbor lookup). -/
theorem el_append_eq (c : Cfg) (hHead : 0 < c.headSz) (s : Heap) (np : Nat)
    (rest : List Blk) (bl : Blk)
    (hlast : s.blocks = rest ++ [bl]) (hfm : bl.foot = bl.size)
    (hcov : spanSum c s.blocks = s.heapBytes)
    (hav : bl.st = St.avail) :
    el_append_pages_to_heap c s np =
      el_merge_block_with_above c
        { blocks := s.blocks
            ++ [(⟨np * c.pageBytes - c.OV, np * c.pageBytes - c.OV, St.avail⟩ : Blk)]
          heapBytes := s.heapBytes + np * c.pageBytes
          avail := { members := s.heapBytes :: s.avail.members
                     length := s.avail.length + 1
                     bytes := s.avail.bytes + ((np * c.pageBytes - c.OV) + c.OV) }
          used := s.used }
        (some (spanSum c rest)) := by
  have hOV : 0 < c.OV := by
    unfold Cfg.OV
    omega
  have hcovR : spanSum c rest + (bl.size + c.OV) = s.heapBytes := by
    rw [hlast, spanSum_append, spanSum_cons, spanSum_nil] at hcov
    omega
  have hnb : blkAt c
      (s.blocks ++ [(⟨np * c.pageBytes - c.OV, np * c.pageBytes - c.OV, St.avail⟩ : Blk)])
      s.heapBytes
      = some ⟨np * c.pageBytes - c.OV, np * c.pageBytes - c.OV, St.avail⟩ := by
    rw [← hcov]
    exact blkAt_at_append c hOV s.blocks [] _
  have hshape : s.blocks
      ++ [(⟨np * c.pageBytes - c.OV, np * c.pageBytes - c.OV, St.avail⟩ : Blk)]
      = rest ++ bl
        :: (⟨np * c.pageBytes - c.OV, np * c.pageBytes - c.OV, St.avail⟩ : Blk) :: [] := by
    rw [hlast]
    simp
  have hfind2 : findBlk c 0
      (s.blocks ++ [(⟨np * c.pageBytes - c.OV, np * c.pageBytes - c.OV, St.avail⟩ : Blk)])
      s.heapBytes
      = some (rest.length + 1,
          ⟨np * c.pageBytes - c.OV, np * c.pageBytes - c.OV, St.avail⟩) := by
    rw [hshape]
    have h := findBlk_at_append_zero c hOV (rest ++ [bl]) []
      (⟨np * c.pageBytes - c.OV, np * c.pageBytes - c.OV, St.avail⟩ : Blk)
    rw [show spanSum c (rest ++ [bl]) = s.heapBytes from by
      rw [spanSum_append, spanSum_cons, spanSum_nil]
      omega] at h
    rw [show (rest ++ [bl])
        ++ (⟨np * c.pageBytes - c.OV, np * c.pageBytes - c.OV, St.avail⟩ : Blk)
          :: ([] : List Blk)
        = rest ++ bl
          :: (⟨np * c.pageBytes - c.OV, np * c.pageBytes - c.OV, St.avail⟩ : Blk) :: []
      from by simp] at h
    rw [show (rest ++ [bl]).length = rest.length + 1 from by simp] at h
    exact h
  have hgb : (s.blocks
      ++ [(⟨np * c.pageBytes - c.OV, np * c.pageBytes - c.OV, St.avail⟩ : Blk)])[rest.length]?
      = some bl := by
    rw [hshape]
    rw [List.getElem?_eq_getElem (show rest.length
        < (rest ++ bl
          :: (⟨np * c.pageBytes - c.OV, np * c.pageBytes - c.OV, St.avail⟩ : Blk) :: []).length
      from by
        simp only [List.length_append, List.length_cons, List.length_nil]
        omega)]
    rw [getElem_len_at_append rest
      ((⟨np * c.pageBytes - c.OV, np * c.pageBytes - c.OV, St.avail⟩ : Blk) :: []) bl
      (by
        simp only [List.length_append, List.length_cons, List.length_nil]
        omega)]
  have hblB : blkAt c
      (s.blocks ++ [(⟨np * c.pageBytes - c.OV, np * c.pageBytes - c.OV, St.avail⟩ : Blk)])
      (spanSum c rest)
      = some bl := by
    rw [hshape]
    exact blkAt_at_append c hOV rest
      ((⟨np * c.pageBytes - c.OV, np * c.pageBytes - c.OV, St.avail⟩ : Blk) :: []) bl
  have hbel : el_block_below c
      { blocks := s.blocks
          ++ [(⟨np * c.pageBytes - c.OV, np * c.pageBytes - c.OV, St.avail⟩ : Blk)]
        heapBytes := s.heapBytes + np * c.pageBytes
        avail := { members := s.heapBytes :: s.avail.members
                   length := s.avail.length + 1
                   bytes := s.avail.bytes + ((np * c.pageBytes - c.OV) + c.OV) }
        used := s.used }
      s.heapBytes
      = some (s.heapBytes - (bl.foot + c.OV)) := by
    unfold el_block_below
    rw [if_neg (show ¬ s.heapBytes ≤ c.footSz from by
      unfold Cfg.OV at hcovR
      omega)]
    dsimp only
    rw [hfind2]
    dsimp only
    rw [hgb]
  unfold el_append_pages_to_heap
  dsimp only
  unfold el_add_block_front
  rw [hnb]
  dsimp only
  rw [hbel]
  dsimp only
  rw [show s.heapBytes - (bl.foot + c.OV) = spanSum c rest from by
    rw [hfm]
    omega]
  rw [hblB]
  dsimp only
  rw [if_pos hav]

/-- Claim C9: growing the heap by one page when the topmost existing
block is `EL_AVAILABLE` formats the appended page region as one
available block, and the merge started from the old topmost block
collapses the two into a single available block whose size is the old
top block's size plus the page size (so its full span is the old top
block's span plus the page region minus one `EL_BLOCK_OVERHEAD` for the
header/footer pair that disappears) — the heap does not end in two
adjacent available blocks. -/
theorem claim_C9_grow_merges_top (c : Cfg) (hOK : CfgOK c) (s : Heap)
    (hwf : WF c s) (hnaf : NoAdjFree s) (rest : List Blk) (bl : Blk)
    (hlast : s.blocks = rest ++ [bl]) (hav : bl.st = St.avail) :
    (el_append_pages_to_heap c s 1).blocks
      = rest ++ [(⟨bl.size + c.pageBytes, bl.size + c.pageBytes, St.avail⟩ : Blk)] ∧
    (el_append_pages_to_heap c s 1).heapBytes = s.heapBytes + c.pageBytes := by
  obtain ⟨hHead, hFoot, hPage⟩ := hOK
  have hOV : 0 < c.OV := by
    unfold Cfg.OV
    omega
  have hpg : 0 < c.pageBytes := by omega
  obtain ⟨hcov, hmir, _⟩ := hwf
  have hfm : bl.foot = bl.size := hmir bl (by rw [hlast]; simp)
  have hcovR : spanSum c rest + (bl.size + c.OV) = s.heapBytes := by
    have h := hcov
    rw [hlast, spanSum_append, spanSum_cons, spanSum_nil] at h
    omega
  have hnaf2 : noAdjFreeRun (rest ++ [bl]) = true := by
    have h := hnaf
    unfold NoAdjFree at h
    rw [hlast] at h
    exact h
  have heq := el_append_eq c hHead s 1 rest bl hlast hfm hcov hav
  rw [one_mul] at heq
  rw [heq]
  rw [hlast]
  rw [show (rest ++ [bl]) ++ [(⟨c.pageBytes - c.OV, c.pageBytes - c.OV, St.avail⟩ : Blk)]
      = rest ++ bl :: (⟨c.pageBytes - c.OV, c.pageBytes - c.OV, St.avail⟩ : Blk) :: []
    from by simp]
  set NB : Blk := ⟨c.pageBytes - c.OV, c.pageBytes - c.OV, St.avail⟩ with hNB
  set S2 : Heap :=
    { blocks := rest ++ bl :: NB :: []
      heapBytes := s.heapBytes + c.pageBytes
      avail := { members := s.heapBytes :: s.avail.members
                 length := s.avail.length + 1
                 bytes := s.avail.bytes + ((c.pageBytes - c.OV) + c.OV) }
      used := s.used } with hS2
  unfold el_merge_block_with_above
  rw [show (2 * S2.blocks.length + 2) = (2 * S2.blocks.length + 1) + 1 from rfl]
  have hfo : findBlk c 0 S2.blocks (spanSum c rest) = some (rest.length, bl) := by
    rw [hS2]
    exact findBlk_at_append_zero c hOV rest (NB :: []) bl
  have h1 : blkAt c S2.blocks (spanSum c rest) = some bl := by
    unfold blkAt
    rw [hfo]
    rfl
  have hfa : findBlk c 0 S2.blocks (spanSum c rest + (bl.size + c.OV))
      = some (rest.length + 1, NB) := by
    rw [hS2]
    have h := findBlk_at_append_zero c hOV (rest ++ [bl]) [] NB
    rw [show spanSum c (rest ++ [bl]) = spanSum c rest + (bl.size + c.OV) from by
      rw [spanSum_append, spanSum_cons, spanSum_nil]
      omega] at h
    rw [show (rest ++ [bl]) ++ NB :: ([] : List Blk) = rest ++ bl :: NB :: []
      from by simp] at h
    rw [show (rest ++ [bl]).length = rest.length + 1 from by simp] at h
    exact h
  have h4 : blkAt c S2.blocks (spanSum c rest + (bl.size + c.OV)) = some NB := by
    unfold blkAt
    rw [hfa]
    rfl
  have hABv : el_block_above c S2 (spanSum c rest)
      = some (spanSum c rest + (bl.size + c.OV)) := by
    unfold el_block_above
    rw [h1]
    dsimp only
    rw [if_neg (by omega)]
  have h6 := mergeStep_eq c hOV S2 (spanSum c rest)
    (spanSum c rest + (bl.size + c.OV)) rest.length bl NB hfo hfa
  have e1 : S2.blocks.take rest.length = rest := by
    rw [hS2]
    exact take_at_append_idx rest (bl :: NB :: []) rest.length rfl
  have e2 : S2.blocks.drop (rest.length + 2) = [] := by
    rw [hS2]
    exact drop_two_at_append_idx rest [] bl NB rest.length rfl
  rw [e1, e2] at h6
  have hmg : (⟨bl.size + NB.size + c.OV, bl.size + NB.size + c.OV, bl.st⟩ : Blk)
      = ⟨bl.size + c.pageBytes, bl.size + c.pageBytes, St.avail⟩ := by
    have hnbs : NB.size = c.pageBytes - c.OV := by rw [hNB]
    rw [hnbs, hav,
      show bl.size + (c.pageBytes - c.OV) + c.OV = bl.size + c.pageBytes from by omega]
  rw [hmg] at h6
  set T : Heap :=
    { blocks := rest ++ (⟨bl.size + c.pageBytes, bl.size + c.pageBytes, St.avail⟩ : Blk) :: []
      heapBytes := S2.heapBytes
      avail := { members := spanSum c rest
                   :: ((S2.avail.members.erase (spanSum c rest + (bl.size + c.OV))).erase
                        (spanSum c rest))
                 length := S2.avail.length - 1 - 1 + 1
                 bytes := S2.avail.bytes - (NB.size + c.OV) - (bl.size + c.OV)
                           + ((bl.size + NB.size + c.OV) + c.OV) }
      used := S2.used } with hT
  have hTb : T.blocks
      = rest ++ (⟨bl.size + c.pageBytes, bl.size + c.pageBytes, St.avail⟩ : Blk) :: [] := by
    rw [hT]
  have hTh : T.heapBytes = s.heapBytes + c.pageBytes := by
    rw [hT, hS2]
  have hiT : rest.length < T.blocks.length := by
    rw [hTb]
    simp only [List.length_append, List.length_cons, List.length_nil]
    omega
  have hcovT : spanSum c T.blocks = T.heapBytes := by
    rw [hTb, hTh, spanSum_append, spanSum_cons, spanSum_nil]
    dsimp only
    omega
  have hmirT : ∀ b2 ∈ T.blocks, b2.foot = b2.size := by
    rw [hTb]
    intro b2 hb2
    rw [List.mem_append, List.mem_cons] at hb2
    rcases hb2 with hb2 | hb2 | hb2
    · exact hmir b2 (by rw [hlast]; exact List.mem_append_left _ hb2)
    · subst hb2
      rfl
    · cases hb2
  have havT : T.blocks[rest.length].st = St.avail := by
    show (rest
      ++ (⟨bl.size + c.pageBytes, bl.size + c.pageBytes, St.avail⟩ : Blk) :: [])[rest.length].st
      = St.avail
    rw [getElem_len_at_append rest ([] : List Blk)
      (⟨bl.size + c.pageBytes, bl.size + c.pageBytes, St.avail⟩ : Blk)
      (by
        simp only [List.length_append, List.length_cons, List.length_nil]
        omega)]
  have hupT : rest.length + 1 < T.blocks.length →
      ∀ bb, blkAt c T.blocks (offAt c T.blocks (rest.length + 1)) = some bb →
        ¬ bb.st = St.avail := by
    intro hlt
    exfalso
    rw [hTb] at hlt
    simp only [List.length_append, List.length_cons, List.length_nil] at hlt
    omega
  have hdnT : 0 < rest.length →
      ∀ bb, blkAt c T.blocks (offAt c T.blocks (rest.length - 1)) = some bb →
        ¬ bb.st = St.avail := by
    intro hpos bb hbb
    obtain ⟨k, hk⟩ : ∃ k, rest.length = k + 1 := ⟨rest.length - 1, by omega⟩
    rw [hk] at hbb
    simp only [Nat.add_sub_cancel] at hbb
    have hkT : k < T.blocks.length := by
      rw [hTb]
      simp only [List.length_append, List.length_cons, List.length_nil]
      omega
    rw [blkAt_offAt c hOV T.blocks k hkT] at hbb
    have hbbe : bb = T.blocks[k] := ((Option.some.injEq _ _).mp hbb).symm
    subst hbbe
    intro hbav
    have hkr : k < rest.length := by omega
    have hTk : T.blocks[k] = rest[k] := by
      show (rest ++ (⟨bl.size + c.pageBytes, bl.size + c.pageBytes, St.avail⟩ : Blk) :: [])[k]
        = rest[k]
      exact getElem_lt_at_append rest _ k hkr (by
        simp only [List.length_append, List.length_cons, List.length_nil]
        omega)
    rw [hTk] at hbav
    have hpair := noAdjFree_pair (rest ++ [bl]) hnaf2 k
      (by
        simp only [List.length_append, List.length_cons, List.length_nil]
        omega)
      (by
        rw [getElem_lt_at_append rest [bl] k hkr (by
          simp only [List.length_append, List.length_cons, List.length_nil]
          omega)]
        exact hbav)
    exact hpair (by
      rw [getElem_len_at_append_idx rest ([] : List Blk) bl (k + 1) hk (by
        simp only [List.length_append, List.length_cons, List.length_nil]
        omega)]
      exact hav)
  have hstuck := mergeFuel_stuck c hHead (2 * S2.blocks.length) T rest.length hiT
    hcovT hmirT havT hupT hdnT
  have hoffT : offAt c T.blocks rest.length = spanSum c rest := by
    show offAt c
      (rest ++ (⟨bl.size + c.pageBytes, bl.size + c.pageBytes, St.avail⟩ : Blk) :: [])
      rest.length = spanSum c rest
    unfold offAt
    rw [take_at_append_idx rest _ rest.length rfl]
  rw [hoffT] at hstuck
  have hbp := below_part_stuck c hHead (2 * S2.blocks.length + 1) T rest.length hiT
    hmirT hdnT
  rw [hoffT] at hbp
  have hkey := mergeFuel_merge_stuck c (2 * S2.blocks.length + 1) S2 T
    (spanSum c rest) (spanSum c rest + (bl.size + c.OV)) bl NB
    h1 hav hABv h4 rfl h6 hstuck hbp
  rw [hkey]
  exact ⟨hTb, hTh⟩

theorem claim_C9_witness :
    CfgOK bugCfg ∧ WF bugCfg bugS0 ∧ NoAdjFree bugS0 ∧
    bugS0.blocks = [] ++ [(⟨4056, 4056, St.avail⟩ : Blk)] ∧
    (⟨4056, 4056, St.avail⟩ : Blk).st = St.avail ∧
    ((el_append_pages_to_heap bugCfg bugS0 1).blocks
        = [] ++ [(⟨(⟨4056, 4056, St.avail⟩ : Blk).size + bugCfg.pageBytes,
                   (⟨4056, 4056, St.avail⟩ : Blk).size + bugCfg.pageBytes, St.avail⟩ : Blk)] ∧
     (el_append_pages_to_heap bugCfg bugS0 1).heapBytes
        = bugS0.heapBytes + bugCfg.pageBytes) :=
  ⟨by decide, by decide, by decide, by decide, by decide,
   claim_C9_grow_merges_top bugCfg (by decide) bugS0 (by decide) (by decide)
     [] ⟨4056, 4056, St.avail⟩ (by decide) (by decide)⟩

theorem bugFinal_reachable : Reachable bugCfg bugFinal := by
  have h0 : Reachable bugCfg bugS0 := Reachable.init 4096 bugS0 (by decide)
  have h1 := Reachable.mallocStep bugS0 1000 h0
  have h2 := Reachable.mallocStep _ 3016 h1
  have h3 := Reachable.freeStep _ 32 ⟨1000, 1000, St.used⟩ h2 (by decide) (by decide)
  exact Reachable.freeStep _ 1072 ⟨3016, 3016, St.used⟩ h3 (by decide) (by decide)

/-- Claim C1: the no-adjacent-free invariant fails on the code: starting from
`el_init` with a 4096-byte heap, the returned-call sequence
`el_malloc(1000)`, `el_malloc(3016)`, `el_free(first)`, `el_free(second)`
reaches a state whose heap walk is two address-adjacent blocks that are
both `EL_AVAILABLE` (sizes 1000 and 3016).  The second `el_free` releases
the topmost block; `el_merge_block_with_above` returns as soon as it sees
that there is no block above, skipping the check of the available block
below, so the two blocks are never coalesced. -/
theorem claim_C1_no_adjacent_free_violated :
    Reachable bugCfg bugFinal ∧
      bugFinal.blocks = [⟨1000, 1000, St.avail⟩, ⟨3016, 3016, St.avail⟩] ∧
      ¬ NoAdjFree bugFinal :=
  ⟨bugFinal_reachable, by decide, by decide⟩

/-- Claim C2: merge-on-release is not bidirectional on the code: in the
reachable state `[available 1000 | used 3016]`, releasing the topmost
block (payload offset 1072) returns with the heap still split into two
blocks — the maximal run of FREE blocks touching the released block
(the released block itself and the free 1000-byte block below it) is not
collapsed into one free block, because `el_merge_block_with_above`
returns early when no block exists above the released block, before
looking below. -/
theorem claim_C2_release_merge_not_bidirectional :
    Reachable bugCfg bugPre ∧
      bugPre.blocks = [⟨1000, 1000, St.avail⟩, ⟨3016, 3016, St.used⟩] ∧
      el_free bugCfg bugPre 1072 = bugFinal ∧
      bugFinal.blocks = [⟨1000, 1000, St.avail⟩, ⟨3016, 3016, St.avail⟩] := by
  refine ⟨?_, by decide, rfl, by decide⟩
  have h0 : Reachable bugCfg bugS0 := Reachable.init 4096 bugS0 (by decide)
  have h1 := Reachable.mallocStep bugS0 1000 h0
  have h2 := Reachable.mallocStep _ 3016 h1
  exact Reachable.freeStep _ 32 ⟨1000, 1000, St.used⟩ h2 (by decide) (by decide)

end ElMalloc
